import Mathlib

/-!
A verification development for the university-timetable CSP solver.

The definitions below are a shallow embedding of the core pipeline of
`src/test.py` (the v3 solver): `compatible_room`, `build_vars_domains`,
`greedy_assign` (with its conflict-minimizing fallback and the synthetic
last-resort tuple), `improve_assignments`, and the row construction of
`export_results`.  Python dictionaries are modelled as association lists
with Python's insert-or-overwrite semantics (`dinsertA` / `dinsertD`),
Python sets as duplicate-free lists (`sinsert` / `sremove`), and Python's
stable `sorted` as a stable insertion sort.  The `random.shuffle` in
`improve_assignments` is modelled by passing the shuffled worklist as an
explicit parameter, constrained to be a permutation of the list the code
computes.  Machine integers are `Int` (Python ints are unbounded).
-/

/-- Lowercasing, as Python's `str.lower()` on ASCII data (`"...".lower()`). -/
def strLower (s : String) : String := ⟨s.data.map Char.toLower⟩

/-- Substring test on char lists: does `needle` occur contiguously? -/
def isSub (needle : List Char) : List Char → Bool
  | [] => needle.isEmpty
  | c :: rest => needle.isPrefixOf (c :: rest) || isSub needle rest

/-- Python's `needle in hay` substring test. -/
def strContains (hay needle : String) : Bool := isSub needle.data hay.data

/-- `compatible_room` from src/test.py lines 39-53. -/
def compatible_room (course_type room_type : String) : Bool :=
  let c := strLower course_type
  let r := strLower room_type
  if c == "" then true
  else if c == r then true
  else if strContains c "lec" && strContains r "lec" then true
  else if strContains c "lab" && strContains r "lab" then true
  else if strContains c "project" && strContains r "project" then true
  else if strContains r "lec" then true
  else false

/-- Room record as produced by `preprocess`: lowered type string and capacity. -/
structure RoomInfo where
  rtype : String
  capacity : Int
deriving DecidableEq, Repr

/-- Instructor record as produced by `preprocess`: display name and the set of
course ids the instructor is qualified for (a list; membership is what counts). -/
structure InstrInfo where
  iname : String
  quals : List String
deriving DecidableEq, Repr

/-- Section record as produced by `preprocess`. -/
structure SectionRow where
  section_id : String
  year : Int
  students : Int
deriving DecidableEq, Repr

/-- Timeslot display info (opaque to the algorithm, used only by export). -/
structure TimeslotInfo where
  day : String
  start : String
  stop : String
deriving DecidableEq, Repr

/-- `curriculum.get(year, [])` on the year → course-id list mapping. -/
def curricGet (curriculum : List (Int × List String)) (y : Int) : List String :=
  (List.lookup y curriculum).getD []

/-- The `LectureVar` class of src/test.py lines 201-214.  In Python its
equality and hash are by the generated `name` string; we store the fields and
derive the name, and key all dictionaries by the name. -/
structure LectureVar where
  course : String
  sec : String
  year : Int
  idx : Nat
  students : Int
deriving DecidableEq, Repr

/-- `self.name = f"{course}_{section}_L{idx}"`. -/
def LectureVar.name (v : LectureVar) : String :=
  v.course ++ "_" ++ v.sec ++ "_L" ++ toString v.idx

/-- A candidate tuple `(timeslot, room, instructor, qualified)`. -/
abbrev Cand := String × String × String × Bool

def candT (c : Cand) : String := c.1
def candR (c : Cand) : String := c.2.1
def candI (c : Cand) : String := c.2.2.1
def candQ (c : Cand) : Bool := c.2.2.2

/-- Python dict assignment `m[v] = c` on a dict keyed by `LectureVar`
(name equality): overwrite in place if the key exists (keeping the original
key object, as Python does), else append. -/
def dinsertA (m : List (LectureVar × Cand)) (v : LectureVar) (c : Cand) :
    List (LectureVar × Cand) :=
  if m.any (fun p => p.1.name == v.name) then
    m.map (fun p => if p.1.name == v.name then (p.1, c) else p)
  else m ++ [(v, c)]

/-- Python dict access `m[v]` / `m.get(v)` keyed by variable name. -/
def dlookupA (m : List (LectureVar × Cand)) (k : String) : Option Cand :=
  (m.find? (fun p => p.1.name == k)).map (fun p => p.2)

/-- Python dict assignment on the domains dict (keyed by variable name). -/
def dinsertD (m : List (String × List Cand)) (k : String) (d : List Cand) :
    List (String × List Cand) :=
  if m.any (fun p => p.1 == k) then
    m.map (fun p => if p.1 == k then (p.1, d) else p)
  else m ++ [(k, d)]

/-- `domains.get(v, [])`. -/
def domOf (domains : List (String × List Cand)) (k : String) : List Cand :=
  (List.lookup k domains).getD []

/-- Python `set.add`: append if absent (membership semantics of a set). -/
def sinsert (l : List (String × String)) (x : String × String) :
    List (String × String) :=
  if l.contains x then l else l ++ [x]

/-- Python `set.discard`. -/
def sremove (l : List (String × String)) (x : String × String) :
    List (String × String) :=
  l.filter (fun y => ¬(y == x))

/-- The candidate domain built for one session in src/test.py lines 231-241:
all timeslot × room × instructor combinations whose room is type-compatible
and large enough; every instructor appears, qualification only sets the flag. -/
def domFor (timeslots : List String) (rooms : List (String × RoomInfo))
    (instructors : List (String × InstrInfo)) (ctype cid : String)
    (students : Int) : List Cand :=
  timeslots.flatMap fun t =>
    rooms.flatMap fun rp =>
      if compatible_room ctype rp.2.rtype && decide (students ≤ rp.2.capacity) then
        instructors.map fun ip => (t, rp.1, ip.1, ip.2.quals.contains cid)
      else []

/-- The number of sessions generated for a course type:
`sessions = 2 if "lec" in ctype else 1`. -/
def sessionCount (ctype : String) : Nat :=
  if strContains ctype "lec" then 2 else 1

/-- The block of sessions generated for one (section, course id) pair. -/
def sessionsFor (courses : List (String × String)) (sec : SectionRow)
    (cid : String) : List LectureVar :=
  (List.range (sessionCount ((List.lookup cid courses).getD ""))).map
    (fun i => ⟨cid, sec.section_id, sec.year, i, sec.students⟩)

/-- `build_vars_domains` from src/test.py lines 216-243: the triple-nested
loop appending one variable and one domains-dict entry per session. -/
def build_vars_domains (courses : List (String × String))
    (instructors : List (String × InstrInfo)) (rooms : List (String × RoomInfo))
    (timeslots : List String) (sections : List SectionRow)
    (curriculum : List (Int × List String)) :
    List LectureVar × List (String × List Cand) :=
  sections.foldl (fun acc sec =>
    (curricGet curriculum sec.year).foldl (fun acc2 cid =>
      let ctype := (List.lookup cid courses).getD ""
      (List.range (sessionCount ctype)).foldl (fun acc3 i =>
        let v : LectureVar := ⟨cid, sec.section_id, sec.year, i, sec.students⟩
        (acc3.1 ++ [v],
         dinsertD acc3.2 v.name (domFor timeslots rooms instructors ctype cid sec.students)))
        acc2) acc) ([], [])

/-- State of the greedy pass: the assignment dict, the two occupancy sets,
and the violation counter. -/
structure GState where
  assigned : List (LectureVar × Cand)
  usedRoom : List (String × String)
  usedInstr : List (String × String)
  violations : Nat
deriving DecidableEq, Repr

/-- `(t,r) in used_room_ts or (t,instr) in used_instr_ts`. -/
def conflicted (usedRoom usedInstr : List (String × String)) (c : Cand) : Bool :=
  usedRoom.contains (candT c, candR c) || usedInstr.contains (candT c, candI c)

/-- The fallback's conflict score of a candidate against the occupancy sets. -/
def score (usedRoom usedInstr : List (String × String)) (c : Cand) : Nat :=
  (if usedRoom.contains (candT c, candR c) then 1 else 0) +
  (if usedInstr.contains (candT c, candI c) then 1 else 0)

/-- The fallback scan of src/test.py lines 266-279: fold keeping the first
candidate of strictly smallest conflict score (`best_conf` starts at 1e9). -/
def fallbackPick (usedRoom usedInstr : List (String × String))
    (dom : List Cand) : Option Cand :=
  (dom.foldl (fun acc opt =>
    if score usedRoom usedInstr opt < acc.2 then (some opt, score usedRoom usedInstr opt)
    else acc) ((none : Option Cand), 1000000000)).1

/-- Committing a chosen tuple: record it and occupy both pairs
(src/test.py lines 287-290); `dv` is the violation increment of the branch. -/
def commit (st : GState) (v : LectureVar) (c : Cand) (dv : Nat) : GState :=
  { assigned := dinsertA st.assigned v c,
    usedRoom := sinsert st.usedRoom (candT c, candR c),
    usedInstr := sinsert st.usedInstr (candT c, candI c),
    violations := st.violations + dv }

/-- One iteration of the greedy loop body (src/test.py lines 253-290):
first conflict-free candidate of qualified ++ other, else the
score-minimizing fallback, else the synthetic `("ts0","room0","instr0")`
tuple (reachable only when the domain is empty). -/
def greedyStep (domains : List (String × List Cand)) (st : GState)
    (v : LectureVar) : GState :=
  let dom := domOf domains v.name
  let qualified := dom.filter (fun d => candQ d)
  let other := dom.filter (fun d => !candQ d)
  match (qualified ++ other).find? (fun c => !conflicted st.usedRoom st.usedInstr c) with
  | some chosen => commit st v chosen 0
  | none =>
    match fallbackPick st.usedRoom st.usedInstr dom with
    | some best => commit st v best 1
    | none => commit st v ("ts0", "room0", "instr0", false) 1

/-- Stable insertion for `sorted(variables, key=lambda x: -x.students)`:
an element goes before the first element with at most its student count,
so earlier elements stay before equal-count later ones. -/
def insertVar (x : LectureVar) : List LectureVar → List LectureVar
  | [] => [x]
  | y :: ys => if y.students ≤ x.students then x :: y :: ys else y :: insertVar x ys

/-- Python's stable `sorted` by descending student count. -/
def sortVars (l : List LectureVar) : List LectureVar := l.foldr insertVar []

/-- `greedy_assign` from src/test.py lines 248-291. -/
def greedy_assign (vars : List LectureVar)
    (domains : List (String × List Cand)) : List (LectureVar × Cand) × Nat :=
  let st := (sortVars vars).foldl (greedyStep domains) ⟨[], [], [], 0⟩
  (st.assigned, st.violations)

/-- The sessions currently holding an unqualified tuple
(`[v for v,val in assigned.items() if not val[3]]`). -/
def unqualifiedOf (assigned : List (LectureVar × Cand)) : List LectureVar :=
  (assigned.filter (fun p => !candQ p.2)).map (fun p => p.1)

/-- State of the improvement pass. -/
structure IState where
  assigned : List (LectureVar × Cand)
  roomTs : List (String × String)
  instrTs : List (String × String)
  improved : Nat
deriving DecidableEq, Repr

/-- One iteration of the `improve_assignments` while-loop body
(src/test.py lines 304-330): scan the domain for a qualified candidate whose
pairs are free or equal to the session's own current pairs; on success swap
atomically (discard old pairs, overwrite the dict entry, add new pairs).
Python indexes `assigned[v]` directly; the `none` branch is unreachable
because the worklist holds keys of `assigned`. -/
def improveStep (domains : List (String × List Cand)) (st : IState)
    (v : LectureVar) : IState :=
  match dlookupA st.assigned v.name with
  | none => st
  | some cur =>
    let dom := domOf domains v.name
    match dom.find? (fun opt =>
      candQ opt &&
      !((st.roomTs.contains (candT opt, candR opt) &&
          !(candT opt == candT cur && candR opt == candR cur)) ||
        (st.instrTs.contains (candT opt, candI opt) &&
          !(candT opt == candT cur && candI opt == candI cur)))) with
    | some f =>
      { assigned := dinsertA st.assigned v f,
        roomTs := sinsert (sremove st.roomTs (candT cur, candR cur)) (candT f, candR f),
        instrTs := sinsert (sremove st.instrTs (candT cur, candI cur)) (candT f, candI f),
        improved := st.improved + 1 }
    | none => st

/-- The while-loop of `improve_assignments`: `unqualified.pop()` takes the
last element, so the loop consumes the reversed worklist; it stops when the
worklist or the iteration budget is exhausted. -/
def improveLoop (domains : List (String × List Cand)) :
    List LectureVar → Nat → IState → IState
  | _, 0, st => st
  | [], _ + 1, st => st
  | v :: rest, fuel + 1, st => improveLoop domains rest fuel (improveStep domains st v)

/-- `improve_assignments` from src/test.py lines 296-331.  `shuffled` is the
worklist after `random.shuffle`; callers constrain it to be a permutation of
`unqualifiedOf assigned`. -/
def improve_assignments (assigned : List (LectureVar × Cand))
    (domains : List (String × List Cand)) (shuffled : List LectureVar)
    (max_iters : Nat) : List (LectureVar × Cand) × Nat :=
  let roomTs := assigned.foldl (fun s p => sinsert s (candT p.2, candR p.2)) []
  let instrTs := assigned.foldl (fun s p => sinsert s (candT p.2, candI p.2)) []
  let st := improveLoop domains shuffled.reverse max_iters ⟨assigned, roomTs, instrTs, 0⟩
  (st.assigned, st.improved)

/-- One output row of `export_results` (src/test.py lines 338-355). -/
structure ExportRow where
  var_name : String
  year : Int
  course : String
  section_id : String
  timeslot_id : String
  day : String
  start : String
  stop : String
  room : String
  instructor_id : String
  instructor_name : String
  instructor_qualified : Bool
deriving DecidableEq, Repr

/-- The row list built by `export_results`: one row per `assigned.items()`. -/
def export_rows (assigned : List (LectureVar × Cand))
    (timeslot_info : List (String × TimeslotInfo))
    (instructors : List (String × InstrInfo)) : List ExportRow :=
  assigned.map fun p =>
    let t := candT p.2
    let info := (List.lookup t timeslot_info).getD ⟨"", "", ""⟩
    let iid := candI p.2
    let instr_name := match List.lookup iid instructors with
      | some inf => inf.iname
      | none => iid
    ⟨p.1.name, p.1.year, p.1.course, p.1.sec, t, info.day, info.start, info.stop,
     candR p.2, iid, instr_name, candQ p.2⟩

/-! ## Generic helper lemmas about the container encodings -/

theorem foldl_fst_flat {β γ δ : Type _} (step : List β × δ → γ → List β × δ)
    (f : γ → List β) (h : ∀ p x, (step p x).1 = p.1 ++ f x) :
    ∀ (l : List γ) (acc : List β × δ),
      (l.foldl step acc).1 = acc.1 ++ l.flatMap f := by
  intro l
  induction l with
  | nil => intro acc; simp
  | cons x xs ih =>
      intro acc
      rw [List.foldl_cons, ih, List.flatMap_cons, h, List.append_assoc]

theorem sinsert_mem (l : List (String × String)) (x y : String × String) :
    y ∈ sinsert l x ↔ y ∈ l ∨ y = x := by
  unfold sinsert
  split
  · next hc =>
      constructor
      · exact fun h => Or.inl h
      · rintro (h | rfl)
        · exact h
        · simpa using hc
  · simp

theorem sremove_mem (l : List (String × String)) (x y : String × String) :
    y ∈ sremove l x ↔ y ∈ l ∧ y ≠ x := by
  unfold sremove
  simp [List.mem_filter]

theorem sinsert_foldl_mem (l : List (String × String)) (g : α → String × String)
    (xs : List α) (y : String × String) :
    y ∈ xs.foldl (fun s p => sinsert s (g p)) l ↔ y ∈ l ∨ ∃ p ∈ xs, y = g p := by
  induction xs generalizing l with
  | nil => simp
  | cons x rest ih =>
      rw [List.foldl_cons, ih, sinsert_mem]
      constructor
      · rintro ((h | h) | ⟨p, hp, rfl⟩)
        · exact Or.inl h
        · exact Or.inr ⟨x, by simp, h⟩
        · exact Or.inr ⟨p, by simp [hp], rfl⟩
      · rintro (h | ⟨p, hp, rfl⟩)
        · exact Or.inl (Or.inl h)
        · rcases List.mem_cons.mp hp with rfl | hp
          · exact Or.inl (Or.inr rfl)
          · exact Or.inr ⟨p, hp, rfl⟩

/-- Keys of the assignment dict. -/
def keysA (m : List (LectureVar × Cand)) : List String :=
  m.map (fun p => p.1.name)


theorem keysA_replace (m : List (LectureVar × Cand)) (v : LectureVar) (c : Cand) :
    keysA (m.map (fun p => if p.1.name == v.name then (p.1, c) else p)) = keysA m := by
  simp only [keysA, List.map_map]
  refine List.map_congr_left ?_
  intro p _
  by_cases hn : p.1.name = v.name <;> simp [Function.comp, hn]

theorem dinsertA_keys_mem (m : List (LectureVar × Cand)) (v : LectureVar)
    (c : Cand) (k : String) :
    k ∈ keysA (dinsertA m v c) ↔ k ∈ keysA m ∨ k = v.name := by
  unfold dinsertA
  split
  · next hc =>
      rw [keysA_replace]
      constructor
      · exact fun h => Or.inl h
      · rintro (h | rfl)
        · exact h
        · rcases List.any_eq_true.mp hc with ⟨p, hp, hpk⟩
          simp only [beq_iff_eq] at hpk
          exact hpk ▸ List.mem_map.mpr ⟨p, hp, rfl⟩
  · simp [keysA]

theorem dinsertA_keys_nodup (m : List (LectureVar × Cand)) (v : LectureVar)
    (c : Cand) (h : (keysA m).Nodup) : (keysA (dinsertA m v c)).Nodup := by
  unfold dinsertA
  split
  · next hc => rw [keysA_replace]; exact h
  · next hc =>
      simp only [keysA, List.map_append, List.map_cons, List.map_nil]
      rw [List.nodup_append]
      refine ⟨h, List.nodup_singleton _, ?_⟩
      intro a ha hb
      simp only [List.mem_singleton] at hb
      subst hb
      rcases List.mem_map.mp ha with ⟨p, hp, hk⟩
      have : m.any (fun p => p.1.name == v.name) = true :=
        List.any_eq_true.mpr ⟨p, hp, by simp [hk]⟩
      exact absurd this (by simpa using hc)

/-! ## Properties of the stable sort -/

theorem insertVar_perm (x : LectureVar) (l : List LectureVar) :
    (insertVar x l).Perm (x :: l) := by
  induction l with
  | nil => simp [insertVar]
  | cons y ys ih =>
      unfold insertVar
      split
      · exact List.Perm.refl _
      · exact ((ih.cons y).trans (List.Perm.swap x y ys))

theorem sortVars_perm (l : List LectureVar) : (sortVars l).Perm l := by
  induction l with
  | nil => simp [sortVars]
  | cons x xs ih =>
      unfold sortVars at ih ⊢
      rw [List.foldr_cons]
      exact (insertVar_perm x _).trans (ih.cons x)

theorem insertVar_sorted (x : LectureVar) (l : List LectureVar)
    (h : l.Pairwise (fun a b => b.students ≤ a.students)) :
    (insertVar x l).Pairwise (fun a b => b.students ≤ a.students) := by
  induction l with
  | nil => simp [insertVar]
  | cons y ys ih =>
      unfold insertVar
      rcases List.pairwise_cons.mp h with ⟨hy, hys⟩
      split
      · next hle =>
          refine List.pairwise_cons.mpr ⟨?_, h⟩
          intro b hb
          rcases List.mem_cons.mp hb with rfl | hb
          · exact hle
          · exact le_trans (hy b hb) hle
      · next hgt =>
          refine List.pairwise_cons.mpr ⟨?_, ih hys⟩
          intro b hb
          have := (insertVar_perm x ys).mem_iff.mp hb
          rcases List.mem_cons.mp this with rfl | hb2
          · exact le_of_not_le hgt
          · exact hy b hb2

theorem sortVars_sorted (l : List LectureVar) :
    (sortVars l).Pairwise (fun a b => b.students ≤ a.students) := by
  induction l with
  | nil => simp [sortVars]
  | cons x xs ih =>
      unfold sortVars at ih ⊢
      rw [List.foldr_cons]
      exact insertVar_sorted x _ ih

theorem insertVar_filter (x : LectureVar) (l : List LectureVar) (s : Int) :
    (insertVar x l).filter (fun v => v.students == s)
      = if x.students == s then x :: l.filter (fun v => v.students == s)
        else l.filter (fun v => v.students == s) := by
  induction l with
  | nil =>
      show [x].filter (fun v => v.students == s) = _
      cases hx : x.students == s <;> simp [hx]
  | cons y ys ih =>
      unfold insertVar
      split
      · next hle => rw [List.filter_cons]
      · next hgt =>
          rw [List.filter_cons, List.filter_cons, ih]
          by_cases hx : x.students = s
          · have hy : (y.students == s) = false := by
              simp only [beq_eq_false_iff_ne, ne_eq]
              intro hys
              exact hgt (le_of_eq (hx ▸ hys))
            simp [hx, hy]
          · simp [show (x.students == s) = false by simpa using hx]

theorem sortVars_stable (l : List LectureVar) (s : Int) :
    (sortVars l).filter (fun v => v.students == s)
      = l.filter (fun v => v.students == s) := by
  induction l with
  | nil => simp [sortVars]
  | cons x xs ih =>
      unfold sortVars at ih ⊢
      rw [List.foldr_cons, insertVar_filter, List.filter_cons]
      rw [ih]

/-! ## Structure of build_vars_domains -/

theorem flatMap_single {α β : Type _} (l : List α) (g : α → β) :
    l.flatMap (fun x => [g x]) = l.map g := by
  induction l with
  | nil => rfl
  | cons x xs ih => simp [List.flatMap_cons, ih]

theorem build_vars_flatMap (courses : List (String × String))
    (instructors : List (String × InstrInfo)) (rooms : List (String × RoomInfo))
    (timeslots : List String) (sections : List SectionRow)
    (curriculum : List (Int × List String)) :
    (build_vars_domains courses instructors rooms timeslots sections curriculum).1
      = sections.flatMap (fun sec => (curricGet curriculum sec.year).flatMap
          (fun cid => sessionsFor courses sec cid)) := by
  unfold build_vars_domains
  rw [foldl_fst_flat _ (fun sec => (curricGet curriculum sec.year).flatMap
        (fun cid => sessionsFor courses sec cid))]
  · rfl
  · intro p sec
    rw [foldl_fst_flat _ (fun cid => sessionsFor courses sec cid)]
    intro p2 cid
    rw [foldl_fst_flat _ (fun i =>
          [(⟨cid, sec.section_id, sec.year, i, sec.students⟩ : LectureVar)])]
    · simp [sessionsFor, flatMap_single]
    · intro p3 i
      rfl

/-- C6: `build_vars_domains` iterates sections in input order and, for each,
the course ids of `Curriculum[section.year]` in list order, emitting exactly
2 LectureSessions when the course type is lecture-like ("lec" occurs in it)
and exactly 1 otherwise, with session indices 0..sessions-1. -/
theorem build_session_generation (courses : List (String × String))
    (instructors : List (String × InstrInfo)) (rooms : List (String × RoomInfo))
    (timeslots : List String) (sections : List SectionRow)
    (curriculum : List (Int × List String)) :
    (build_vars_domains courses instructors rooms timeslots sections curriculum).1
      = sections.flatMap (fun sec => (curricGet curriculum sec.year).flatMap
          (fun cid => sessionsFor courses sec cid)) ∧
    ∀ (sec : SectionRow) (cid : String),
      sessionsFor courses sec cid =
        (if strContains ((List.lookup cid courses).getD "") "lec" then
          [⟨cid, sec.section_id, sec.year, 0, sec.students⟩,
           ⟨cid, sec.section_id, sec.year, 1, sec.students⟩]
        else [⟨cid, sec.section_id, sec.year, 0, sec.students⟩]) := by
  refine ⟨build_vars_flatMap courses instructors rooms timeslots sections curriculum, ?_⟩
  intro sec cid
  unfold sessionsFor sessionCount
  split <;> rfl

/-! ## Dictionary lookup lemmas -/

theorem find?_map_pred {α : Type _} (g : α → α) (pred : α → Bool)
    (h : ∀ p, pred (g p) = pred p) (m : List α) :
    (m.map g).find? pred = (m.find? pred).map g := by
  induction m with
  | nil => rfl
  | cons p rest ih =>
      simp only [List.map_cons, List.find?_cons, h p]
      cases hp : pred p
      · simpa [hp] using ih
      · simp [hp]

theorem dlookupA_dinsertA (m : List (LectureVar × Cand)) (v : LectureVar)
    (c : Cand) (k : String) :
    dlookupA (dinsertA m v c) k
      = if k = v.name then some c else dlookupA m k := by
  unfold dinsertA dlookupA
  split
  · next hc =>
      rw [find?_map_pred (fun p => if p.1.name == v.name then (p.1, c) else p)
            (fun p => p.1.name == k) ?hpred m]
      case hpred =>
        intro p
        by_cases hp : p.1.name = v.name <;> simp [hp]
      by_cases hk : k = v.name
      · cases hfind : m.find? (fun p => p.1.name == k) with
        | none =>
            rw [List.find?_eq_none] at hfind
            rcases List.any_eq_true.mp hc with ⟨q, hq, hqk⟩
            have hqk2 : (q.1.name == k) = true := by
              simp only [beq_iff_eq] at hqk ⊢
              exact hk ▸ hqk
            exact absurd hqk2 (by simpa using hfind q hq)
        | some q =>
            have hq := List.find?_some hfind
            have hqv : q.1.name = v.name := by
              simp only [beq_iff_eq] at hq
              exact hk ▸ hq
            rw [if_pos hk]
            simp [hqv]
      · cases hfind : m.find? (fun p => p.1.name == k) with
        | none => simp [hk]
        | some q =>
            have hq := List.find?_some hfind
            have hqv : ¬q.1.name = v.name := by
              simp only [beq_iff_eq] at hq
              exact fun h => hk (hq ▸ h)
            simp [hk, hqv]
  · next hc =>
      rw [List.find?_append]
      by_cases hk : k = v.name
      · have hnone : m.find? (fun p => p.1.name == k) = none := by
          rw [List.find?_eq_none]
          intro p hp
          simp only [Bool.not_eq_true, beq_eq_false_iff_ne, ne_eq]
          intro hcon
          exact hc (List.any_eq_true.mpr ⟨p, hp, by simp [hcon, hk]⟩)
        rw [hnone]
        simp only [Option.none_or]
        have : (v.name == k) = true := by simp [hk]
        simp [List.find?, this, hk]
      · cases hfind : m.find? (fun p => p.1.name == k) with
        | some p => simp [hk]
        | none =>
            simp only [Option.none_or]
            have hvk : (v.name == k) = false := by
              simp only [beq_eq_false_iff_ne, ne_eq]
              exact fun h => hk h.symm
            simp [List.find?, hvk, hk]

/-! ## Characterizations of the greedy step -/

theorem find?_first {α : Type _} (p : α → Bool) (l : List α) :
    ∀ (n : Nat) (c : α), l.get? n = some c → p c = true →
      (∀ m d, m < n → l.get? m = some d → p d = false) →
      l.find? p = some c := by
  induction l with
  | nil => intro n c hget; simp at hget
  | cons x xs ih =>
      intro n c hget hc hbefore
      cases n with
      | zero =>
          simp only [List.get?] at hget
          cases hget
          simp [List.find?_cons, hc]
      | succ n =>
          have hx : p x = false := hbefore 0 x (Nat.succ_pos n) rfl
          simp only [List.get?] at hget
          rw [List.find?_cons, hx]
          exact ih n c hget hc (fun m d hm hget2 =>
            hbefore (m + 1) d (Nat.succ_lt_succ hm) hget2)

theorem score_le_two (ur ui : List (String × String)) (c : Cand) :
    score ur ui c ≤ 2 := by
  unfold score
  split <;> split <;> omega

theorem fallback_fold_spec (ur ui : List (String × String)) :
    ∀ (l : List Cand) (b : Option Cand) (s : Nat),
      (l.foldl (fun acc opt =>
          if score ur ui opt < acc.2 then (some opt, score ur ui opt) else acc) (b, s)
            = (b, s)
        ∧ ∀ m d, l.get? m = some d → s ≤ score ur ui d) ∨
      (∃ n best, l.get? n = some best
        ∧ l.foldl (fun acc opt =>
            if score ur ui opt < acc.2 then (some opt, score ur ui opt) else acc) (b, s)
              = (some best, score ur ui best)
        ∧ score ur ui best < s
        ∧ (∀ m d, l.get? m = some d → score ur ui best ≤ score ur ui d)
        ∧ (∀ m d, m < n → l.get? m = some d → score ur ui best < score ur ui d)) := by
  intro l
  induction l with
  | nil =>
      intro b s
      left
      constructor
      · rfl
      · intro m d h; simp at h
  | cons x xs ih =>
      intro b s
      rw [List.foldl_cons]
      by_cases hx : score ur ui x < s
      · rw [if_pos hx]
        rcases ih (some x) (score ur ui x) with ⟨hr, hall⟩ | ⟨n, best, hget, hr, hlt, hall, hbef⟩
        · right
          refine ⟨0, x, rfl, hr, hx, ?_, ?_⟩
          · intro m d hm
            cases m with
            | zero => simp only [List.get?] at hm; cases hm; exact le_refl _
            | succ m => exact hall m d hm
          · intro m d hm; omega
        · right
          refine ⟨n + 1, best, hget, hr, lt_trans hlt hx, ?_, ?_⟩
          · intro m d hm
            cases m with
            | zero => simp only [List.get?] at hm; cases hm; exact le_of_lt hlt
            | succ m => exact hall m d hm
          · intro m d hmn hm
            cases m with
            | zero => simp only [List.get?] at hm; cases hm; exact hlt
            | succ m => exact hbef m d (Nat.lt_of_succ_lt_succ hmn) hm
      · rw [if_neg hx]
        rcases ih b s with ⟨hr, hall⟩ | ⟨n, best, hget, hr, hlt, hall, hbef⟩
        · left
          refine ⟨hr, ?_⟩
          intro m d hm
          cases m with
          | zero => simp only [List.get?] at hm; cases hm; omega
          | succ m => exact hall m d hm
        · right
          refine ⟨n + 1, best, hget, hr, hlt, ?_, ?_⟩
          · intro m d hm
            cases m with
            | zero =>
                simp only [List.get?] at hm; cases hm
                omega
            | succ m => exact hall m d hm
          · intro m d hmn hm
            cases m with
            | zero =>
                simp only [List.get?] at hm; cases hm
                omega
            | succ m => exact hbef m d (Nat.lt_of_succ_lt_succ hmn) hm

theorem fallbackPick_spec (ur ui : List (String × String)) (dom : List Cand)
    (h : dom ≠ []) :
    ∃ n best, dom.get? n = some best
      ∧ fallbackPick ur ui dom = some best
      ∧ (∀ m d, dom.get? m = some d → score ur ui best ≤ score ur ui d)
      ∧ (∀ m d, m < n → dom.get? m = some d → score ur ui best < score ur ui d) := by
  rcases fallback_fold_spec ur ui dom none 1000000000 with ⟨_, hall⟩ | ⟨n, best, hget, hr, _, hall, hbef⟩
  · rcases List.exists_mem_of_ne_nil dom h with ⟨d, hd⟩
    rcases List.mem_iff_get?.mp hd with ⟨m, hm⟩
    have h1 := hall m d hm
    have h2 := score_le_two ur ui d
    omega
  · exact ⟨n, best, hget, by unfold fallbackPick; rw [hr], hall, hbef⟩

theorem fallbackPick_mem (ur ui : List (String × String)) (dom : List Cand)
    (c : Cand) (h : fallbackPick ur ui dom = some c) : c ∈ dom := by
  cases dom with
  | nil => simp [fallbackPick] at h
  | cons x xs =>
      rcases fallbackPick_spec ur ui (x :: xs) (by simp) with ⟨n, best, hget, hr, _, _⟩
      rw [h] at hr
      cases hr
      exact List.mem_iff_get?.mpr ⟨n, hget⟩

theorem fallbackPick_none (ur ui : List (String × String)) (dom : List Cand)
    (h : fallbackPick ur ui dom = none) : dom = [] := by
  by_contra hne
  rcases fallbackPick_spec ur ui dom hne with ⟨n, best, _, hr, _, _⟩
  rw [h] at hr
  cases hr

/-- Every branch of the greedy loop body commits some tuple: a conflict-free
one (no violation), the fallback minimizer (violation), or the synthetic
tuple when the domain is empty (violation). -/
theorem greedyStep_eq (domains : List (String × List Cand)) (st : GState)
    (v : LectureVar) :
    greedyStep domains st v =
      match ((domOf domains v.name).filter (fun d => candQ d)
          ++ (domOf domains v.name).filter (fun d => !candQ d)).find?
            (fun c => !conflicted st.usedRoom st.usedInstr c) with
      | some chosen => commit st v chosen 0
      | none =>
        match fallbackPick st.usedRoom st.usedInstr (domOf domains v.name) with
        | some best => commit st v best 1
        | none => commit st v ("ts0", "room0", "instr0", false) 1 := rfl

theorem greedyStep_cases (domains : List (String × List Cand)) (st : GState)
    (v : LectureVar) :
    ∃ chosen dv, greedyStep domains st v = commit st v chosen dv ∧
      ((dv = 0 ∧ conflicted st.usedRoom st.usedInstr chosen = false
          ∧ chosen ∈ domOf domains v.name) ∨
       (dv = 1 ∧ chosen ∈ domOf domains v.name) ∨
       (dv = 1 ∧ domOf domains v.name = []
          ∧ chosen = ("ts0", "room0", "instr0", false))) := by
  rw [greedyStep_eq]
  cases hfind : ((domOf domains v.name).filter (fun d => candQ d)
      ++ (domOf domains v.name).filter (fun d => !candQ d)).find?
        (fun c => !conflicted st.usedRoom st.usedInstr c) with
  | some chosen =>
      refine ⟨chosen, 0, rfl, Or.inl ⟨rfl, ?_, ?_⟩⟩
      · have := List.find?_some hfind
        simpa using this
      · have := List.mem_of_find?_eq_some hfind
        rcases List.mem_append.mp this with h | h
        · exact List.mem_of_mem_filter h
        · exact List.mem_of_mem_filter h
  | none =>
      cases hfb : fallbackPick st.usedRoom st.usedInstr (domOf domains v.name) with
      | some best =>
          exact ⟨best, 1, rfl, Or.inr (Or.inl ⟨rfl, fallbackPick_mem _ _ _ _ hfb⟩)⟩
      | none =>
          exact ⟨("ts0", "room0", "instr0", false), 1, rfl,
            Or.inr (Or.inr ⟨rfl, fallbackPick_none _ _ _ hfb, rfl⟩)⟩

theorem greedyStep_viol_mono (domains : List (String × List Cand)) (st : GState)
    (v : LectureVar) : st.violations ≤ (greedyStep domains st v).violations := by
  rcases greedyStep_cases domains st v with ⟨chosen, dv, heq, _⟩
  rw [heq]
  unfold commit
  dsimp only
  omega

theorem greedyFold_viol_mono (domains : List (String × List Cand)) :
    ∀ (l : List LectureVar) (st : GState),
      st.violations ≤ (l.foldl (greedyStep domains) st).violations := by
  intro l
  induction l with
  | nil => intro st; exact le_refl _
  | cons v rest ih =>
      intro st
      rw [List.foldl_cons]
      exact le_trans (greedyStep_viol_mono domains st v) (ih _)

/-- Membership in the dict after an insert: untouched entry or the new value. -/
theorem mem_dinsertA (m : List (LectureVar × Cand)) (v : LectureVar) (c : Cand)
    (p : LectureVar × Cand) (h : p ∈ dinsertA m v c) : p ∈ m ∨ p.2 = c := by
  unfold dinsertA at h
  split at h
  · rcases List.mem_map.mp h with ⟨q, hq, hqe⟩
    by_cases hk : q.1.name = v.name
    · right; rw [← hqe]; simp [hk]
    · left; rw [← hqe]; simp [hk]; exact hq
  · rcases List.mem_append.mp h with h | h
    · exact Or.inl h
    · right
      rcases List.mem_singleton.mp h with rfl
      rfl

/-- Pairwise disjointness survives a dict insert whose value is disjoint from
every entry under a different key (keys must be duplicate-free). -/
theorem dinsertA_pairwise (R : Cand → Cand → Prop) (m : List (LectureVar × Cand))
    (v : LectureVar) (c : Cand)
    (hm : m.Pairwise (fun p q => R p.2 q.2))
    (hnd : (keysA m).Nodup)
    (hc : ∀ p ∈ m, p.1.name ≠ v.name → R c p.2 ∧ R p.2 c) :
    (dinsertA m v c).Pairwise (fun p q => R p.2 q.2) := by
  have hne : m.Pairwise (fun p q => p.1.name ≠ q.1.name) := by
    have h2 : (m.map (fun p => p.1.name)).Pairwise (fun a b => a ≠ b) := hnd
    exact List.pairwise_map.mp h2
  unfold dinsertA
  split
  · next hany =>
      rw [List.pairwise_map]
      refine List.Pairwise.imp_of_mem ?_ (hm.and hne)
      intro a b ha hb hab
      rcases hab with ⟨hr, hn⟩
      by_cases hak : a.1.name = v.name <;> by_cases hbk : b.1.name = v.name
      · exact absurd (hak.trans hbk.symm) hn
      · simp only [hak, beq_self_eq_true, if_true, hbk]
        rw [if_neg (by simpa using hbk)]
        exact (hc b hb hbk).1
      · rw [if_neg (by simpa using hak), if_pos (by simpa using hbk)]
        exact (hc a ha hak).2
      · rw [if_neg (by simpa using hak), if_neg (by simpa using hbk)]
        exact hr
  · next hany =>
      rw [List.pairwise_append]
      refine ⟨hm, List.pairwise_singleton _ _, ?_⟩
      intro a ha b hb
      rcases List.mem_singleton.mp hb with rfl
      have hak : a.1.name ≠ v.name := by
        intro hcon
        exact hany (List.any_eq_true.mpr ⟨a, ha, by simpa using hcon⟩)
      exact (hc a ha hak).2

/-! ## The disjointness invariant of the greedy pass -/

/-- Two chosen tuples clash in neither (timeslot, room) nor
(timeslot, instructor). -/
def disjC (c d : Cand) : Prop :=
  (candT c, candR c) ≠ (candT d, candR d) ∧ (candT c, candI c) ≠ (candT d, candI d)

theorem disjC_symm {c d : Cand} (h : disjC c d) : disjC d c :=
  ⟨h.1.symm, h.2.symm⟩

theorem contains_true_of_mem {x : String × String} {l : List (String × String)}
    (h : x ∈ l) : l.contains x = true := by
  simpa using h

/-- Invariant maintained by the greedy loop while no violation occurs:
unique keys, all committed pairs recorded in the occupancy sets, and
pairwise disjoint commitments. -/
def GInv (st : GState) : Prop :=
  (keysA st.assigned).Nodup ∧
  (∀ p ∈ st.assigned,
    (candT p.2, candR p.2) ∈ st.usedRoom ∧ (candT p.2, candI p.2) ∈ st.usedInstr) ∧
  st.assigned.Pairwise (fun p q => disjC p.2 q.2)

theorem greedyStep_GInv (domains : List (String × List Cand)) (st : GState)
    (v : LectureVar) (h : GInv st)
    (hv : (greedyStep domains st v).violations = st.violations) :
    GInv (greedyStep domains st v) := by
  rcases greedyStep_cases domains st v with ⟨chosen, dv, heq, hcase⟩
  have hdv : dv = 0 := by
    rw [heq] at hv
    unfold commit at hv
    dsimp only at hv
    omega
  subst hdv
  rcases hcase with ⟨_, hfree, _⟩ | ⟨h1, _⟩ | ⟨h1, _, _⟩
  · rw [heq]
    obtain ⟨hnd, hsub, hpw⟩ := h
    have hfree2 : (candT chosen, candR chosen) ∉ st.usedRoom
        ∧ (candT chosen, candI chosen) ∉ st.usedInstr := by
      unfold conflicted at hfree
      rw [Bool.or_eq_false_iff] at hfree
      constructor
      · intro hcon
        rw [contains_true_of_mem hcon] at hfree
        exact absurd hfree.1 (by simp)
      · intro hcon
        rw [contains_true_of_mem hcon] at hfree
        exact absurd hfree.2 (by simp)
    refine ⟨dinsertA_keys_nodup _ _ _ hnd, ?_, ?_⟩
    · intro p hp
      rcases mem_dinsertA _ _ _ _ hp with hp2 | hp2
      · rcases hsub p hp2 with ⟨h1, h2⟩
        exact ⟨(sinsert_mem _ _ _).mpr (Or.inl h1), (sinsert_mem _ _ _).mpr (Or.inl h2)⟩
      · rw [hp2]
        exact ⟨(sinsert_mem _ _ _).mpr (Or.inr rfl), (sinsert_mem _ _ _).mpr (Or.inr rfl)⟩
    · refine dinsertA_pairwise _ _ _ _ hpw hnd ?_
      intro p hp _
      rcases hsub p hp with ⟨hpr, hpi⟩
      have hd : disjC chosen p.2 := by
        constructor
        · intro hcon
          exact hfree2.1 (hcon ▸ hpr)
        · intro hcon
          exact hfree2.2 (hcon ▸ hpi)
      exact ⟨hd, disjC_symm hd⟩
  · exact absurd h1 (by decide)
  · exact absurd h1 (by decide)

theorem greedyFold_GInv (domains : List (String × List Cand)) :
    ∀ (l : List LectureVar) (st : GState), GInv st →
      (l.foldl (greedyStep domains) st).violations = st.violations →
      GInv (l.foldl (greedyStep domains) st) := by
  intro l
  induction l with
  | nil => intro st h _; exact h
  | cons v rest ih =>
      intro st h hv
      rw [List.foldl_cons] at hv ⊢
      have h1 : (greedyStep domains st v).violations = st.violations := by
        have m1 := greedyStep_viol_mono domains st v
        have m2 := greedyFold_viol_mono domains rest (greedyStep domains st v)
        omega
      exact ih _ (greedyStep_GInv domains st v h h1) (by rw [hv, h1])

/-- The state reached by `greedy_assign` (exposed for the invariant results). -/
def greedyFinal (vars : List LectureVar) (domains : List (String × List Cand)) :
    GState :=
  (sortVars vars).foldl (greedyStep domains) ⟨[], [], [], 0⟩

theorem greedy_assign_eq (vars : List LectureVar)
    (domains : List (String × List Cand)) :
    greedy_assign vars domains
      = ((greedyFinal vars domains).assigned, (greedyFinal vars domains).violations) := rfl

theorem greedy_GInv_of_no_violation (vars : List LectureVar)
    (domains : List (String × List Cand))
    (h : (greedy_assign vars domains).2 = 0) : GInv (greedyFinal vars domains) := by
  have hinit : GInv ⟨[], [], [], 0⟩ :=
    ⟨List.nodup_nil, fun p hp => absurd hp (List.not_mem_nil p), List.Pairwise.nil⟩
  refine greedyFold_GInv domains (sortVars vars) ⟨[], [], [], 0⟩ hinit ?_
  exact h

/-! ## The disjointness invariant of the improvement pass -/

theorem dlookupA_some_mem (m : List (LectureVar × Cand)) (k : String) (c : Cand)
    (h : dlookupA m k = some c) : ∃ p ∈ m, p.1.name = k ∧ p.2 = c := by
  unfold dlookupA at h
  cases hfind : m.find? (fun p => p.1.name == k) with
  | none => rw [hfind] at h; cases h
  | some p =>
      rw [hfind] at h
      refine ⟨p, List.mem_of_find?_eq_some hfind, ?_, ?_⟩
      · have := List.find?_some hfind
        simpa using this
      · simpa using h

theorem entry_unique (m : List (LectureVar × Cand))
    (hnd : (keysA m).Nodup) :
    ∀ p ∈ m, ∀ q ∈ m, p.1.name = q.1.name → p = q := by
  induction m with
  | nil => intro p hp; exact absurd hp (List.not_mem_nil p)
  | cons a rest ih =>
      intro p hp q hq hpq
      have hnd2 : (keysA rest).Nodup := (List.nodup_cons.mp hnd).2
      have hhead : a.1.name ∉ keysA rest := (List.nodup_cons.mp hnd).1
      rcases List.mem_cons.mp hp with rfl | hp2 <;> rcases List.mem_cons.mp hq with rfl | hq2
      · rfl
      · exact absurd (hpq ▸ List.mem_map.mpr ⟨q, hq2, rfl⟩) hhead
      · exact absurd (hpq ▸ List.mem_map.mpr ⟨p, hp2, rfl⟩ : q.1.name ∈ keysA rest) hhead
      · exact ih hnd2 p hp2 q hq2 hpq

theorem pairwise_entries {R : Cand → Cand → Prop} (hsym : ∀ {c d}, R c d → R d c)
    (m : List (LectureVar × Cand)) (hpw : m.Pairwise (fun p q => R p.2 q.2)) :
    ∀ p ∈ m, ∀ q ∈ m, p.1.name ≠ q.1.name → R p.2 q.2 := by
  induction m with
  | nil => intro p hp; exact absurd hp (List.not_mem_nil p)
  | cons a rest ih =>
      rcases List.pairwise_cons.mp hpw with ⟨ha, hrest⟩
      intro p hp q hq hne
      rcases List.mem_cons.mp hp with rfl | hp2 <;> rcases List.mem_cons.mp hq with rfl | hq2
      · exact absurd rfl hne
      · exact ha q hq2
      · exact hsym (ha p hp2)
      · exact ih hrest p hp2 q hq2 hne

theorem dinsertA_mem_iff (m : List (LectureVar × Cand)) (v : LectureVar) (c : Cand)
    (hany : m.any (fun p => p.1.name == v.name) = true) (p : LectureVar × Cand) :
    p ∈ dinsertA m v c
      ↔ (∃ q ∈ m, q.1.name ≠ v.name ∧ p = q)
        ∨ (∃ q ∈ m, q.1.name = v.name ∧ p = (q.1, c)) := by
  unfold dinsertA
  rw [if_pos hany, List.mem_map]
  constructor
  · rintro ⟨q, hq, hqe⟩
    by_cases hk : q.1.name = v.name
    · right
      refine ⟨q, hq, hk, ?_⟩
      rw [← hqe]
      simp [hk]
    · left
      refine ⟨q, hq, hk, ?_⟩
      rw [← hqe]
      simp [hk]
  · rintro (⟨q, hq, hk, hpe⟩ | ⟨q, hq, hk, hpe⟩)
    · exact ⟨q, hq, by rw [hpe]; simp [hk]⟩
    · exact ⟨q, hq, by rw [hpe]; simp [hk]⟩

theorem improveStep_eq (domains : List (String × List Cand)) (st : IState)
    (v : LectureVar) :
    improveStep domains st v
      = match dlookupA st.assigned v.name with
        | none => st
        | some cur =>
          match (domOf domains v.name).find? (fun opt =>
            candQ opt &&
            !((st.roomTs.contains (candT opt, candR opt) &&
                !(candT opt == candT cur && candR opt == candR cur)) ||
              (st.instrTs.contains (candT opt, candI opt) &&
                !(candT opt == candT cur && candI opt == candI cur)))) with
          | some f =>
            { assigned := dinsertA st.assigned v f,
              roomTs := sinsert (sremove st.roomTs (candT cur, candR cur))
                (candT f, candR f),
              instrTs := sinsert (sremove st.instrTs (candT cur, candI cur))
                (candT f, candI f),
              improved := st.improved + 1 }
          | none => st := rfl

/-- Invariant maintained by the improvement loop: unique keys, pairwise
disjoint assignment, and occupancy sets holding exactly the committed pairs. -/
def IInv (st : IState) : Prop :=
  (keysA st.assigned).Nodup ∧
  st.assigned.Pairwise (fun p q => disjC p.2 q.2) ∧
  (∀ x, x ∈ st.roomTs ↔ ∃ p ∈ st.assigned, x = (candT p.2, candR p.2)) ∧
  (∀ x, x ∈ st.instrTs ↔ ∃ p ∈ st.assigned, x = (candT p.2, candI p.2))

theorem pairwise_entries_disj (m : List (LectureVar × Cand))
    (hpw : m.Pairwise (fun p q => disjC p.2 q.2)) :
    ∀ p ∈ m, ∀ q ∈ m, p.1.name ≠ q.1.name → disjC p.2 q.2 := by
  induction m with
  | nil => intro p hp; exact absurd hp (List.not_mem_nil p)
  | cons a rest ih =>
      rcases List.pairwise_cons.mp hpw with ⟨ha, hrest⟩
      intro p hp q hq hne
      rcases List.mem_cons.mp hp with rfl | hp2 <;> rcases List.mem_cons.mp hq with rfl | hq2
      · exact absurd rfl hne
      · exact ha q hq2
      · exact disjC_symm (ha p hp2)
      · exact ih hrest p hp2 q hq2 hne

theorem improveStep_IInv (domains : List (String × List Cand)) (st : IState)
    (v : LectureVar) (h : IInv st) : IInv (improveStep domains st v) := by
  obtain ⟨hnd, hpw, hroom, hinstr⟩ := h
  rw [improveStep_eq]
  cases hcur : dlookupA st.assigned v.name with
  | none => exact ⟨hnd, hpw, hroom, hinstr⟩
  | some cur =>
      dsimp only
      cases hfind : (domOf domains v.name).find? (fun opt =>
          candQ opt &&
          !((st.roomTs.contains (candT opt, candR opt) &&
              !(candT opt == candT cur && candR opt == candR cur)) ||
            (st.instrTs.contains (candT opt, candI opt) &&
              !(candT opt == candT cur && candI opt == candI cur)))) with
      | none => exact ⟨hnd, hpw, hroom, hinstr⟩
      | some f =>
          dsimp only
          have hf := List.find?_some hfind
          simp only [Bool.and_eq_true, Bool.not_eq_true', Bool.or_eq_false_iff,
            Bool.and_eq_false_iff, Bool.not_eq_false', beq_iff_eq] at hf
          obtain ⟨hfq, hfr, hfi⟩ := hf
          obtain ⟨pv, hpv, hpvname, hpvval⟩ := dlookupA_some_mem _ _ _ hcur
          have hany : st.assigned.any (fun p => p.1.name == v.name) = true :=
            List.any_eq_true.mpr ⟨pv, hpv, by simp [hpvname]⟩
          have hK : ∀ q ∈ st.assigned, q.1.name ≠ v.name → disjC f q.2 := by
            intro q hq hqname
            have hpvq : pv.1.name ≠ q.1.name := by
              rw [hpvname]
              exact fun hh => hqname hh.symm
            have hdpv : disjC pv.2 q.2 :=
              pairwise_entries_disj _ hpw pv hpv q hq hpvq
            constructor
            · rcases hfr with hfr | hfr
              · intro hcon
                have hmem : (candT f, candR f) ∈ st.roomTs :=
                  (hroom _).mpr ⟨q, hq, hcon⟩
                rw [contains_true_of_mem hmem] at hfr
                cases hfr
              · intro hcon
                apply hdpv.1
                rw [hpvval, ← hfr.1, ← hfr.2]
                exact hcon
            · rcases hfi with hfi | hfi
              · intro hcon
                have hmem : (candT f, candI f) ∈ st.instrTs :=
                  (hinstr _).mpr ⟨q, hq, hcon⟩
                rw [contains_true_of_mem hmem] at hfi
                cases hfi
              · intro hcon
                apply hdpv.2
                rw [hpvval, ← hfi.1, ← hfi.2]
                exact hcon
          refine ⟨dinsertA_keys_nodup _ _ _ hnd, ?_, ?_, ?_⟩
          · refine dinsertA_pairwise _ _ _ _ hpw hnd ?_
            intro q hq hqname
            exact ⟨hK q hq hqname, disjC_symm (hK q hq hqname)⟩
          · intro x
            dsimp only
            rw [sinsert_mem, sremove_mem, hroom]
            constructor
            · rintro (⟨⟨q, hq, hxq⟩, hxne⟩ | rfl)
              · have hqname : q.1.name ≠ v.name := by
                  intro hcon
                  have hqpv : q = pv := entry_unique _ hnd q hq pv hpv (by rw [hcon, hpvname])
                  subst hqpv
                  exact hxne (by rw [hxq, hpvval])
                exact ⟨q, (dinsertA_mem_iff _ _ _ hany q).mpr (Or.inl ⟨q, hq, hqname, rfl⟩), hxq⟩
              · refine ⟨(pv.1, f), (dinsertA_mem_iff _ _ _ hany _).mpr
                  (Or.inr ⟨pv, hpv, hpvname, rfl⟩), rfl⟩
            · rintro ⟨p2, hp2, hxp⟩
              rcases (dinsertA_mem_iff _ _ _ hany p2).mp hp2 with ⟨q, hq, hqname, hpe⟩ | ⟨q, hq, hqname, hpe⟩
              · left
                refine ⟨⟨q, hq, by rw [hxp, hpe]⟩, ?_⟩
                have hdq : disjC q.2 pv.2 :=
                  pairwise_entries_disj _ hpw q hq pv hpv (by rw [hpvname]; exact hqname)
                rw [hxp, hpe]
                intro hcon
                apply hdq.1
                rw [hpvval]
                exact hcon
              · right
                rw [hxp, hpe]
          · intro x
            dsimp only
            rw [sinsert_mem, sremove_mem, hinstr]
            constructor
            · rintro (⟨⟨q, hq, hxq⟩, hxne⟩ | rfl)
              · have hqname : q.1.name ≠ v.name := by
                  intro hcon
                  have hqpv : q = pv := entry_unique _ hnd q hq pv hpv (by rw [hcon, hpvname])
                  subst hqpv
                  exact hxne (by rw [hxq, hpvval])
                exact ⟨q, (dinsertA_mem_iff _ _ _ hany q).mpr (Or.inl ⟨q, hq, hqname, rfl⟩), hxq⟩
              · refine ⟨(pv.1, f), (dinsertA_mem_iff _ _ _ hany _).mpr
                  (Or.inr ⟨pv, hpv, hpvname, rfl⟩), rfl⟩
            · rintro ⟨p2, hp2, hxp⟩
              rcases (dinsertA_mem_iff _ _ _ hany p2).mp hp2 with ⟨q, hq, hqname, hpe⟩ | ⟨q, hq, hqname, hpe⟩
              · left
                refine ⟨⟨q, hq, by rw [hxp, hpe]⟩, ?_⟩
                have hdq : disjC q.2 pv.2 :=
                  pairwise_entries_disj _ hpw q hq pv hpv (by rw [hpvname]; exact hqname)
                rw [hxp, hpe]
                intro hcon
                apply hdq.2
                rw [hpvval]
                exact hcon
              · right
                rw [hxp, hpe]

theorem improveLoop_IInv (domains : List (String × List Cand)) :
    ∀ (l : List LectureVar) (fuel : Nat) (st : IState), IInv st →
      IInv (improveLoop domains l fuel st) := by
  intro l
  induction l with
  | nil =>
      intro fuel st h
      cases fuel <;> exact h
  | cons v rest ih =>
      intro fuel st h
      cases fuel with
      | zero => exact h
      | succ fuel => exact ih fuel _ (improveStep_IInv domains st v h)

theorem improve_assignments_eq (assigned : List (LectureVar × Cand))
    (domains : List (String × List Cand)) (shuffled : List LectureVar)
    (max_iters : Nat) :
    improve_assignments assigned domains shuffled max_iters
      = ((improveLoop domains shuffled.reverse max_iters
            ⟨assigned,
             assigned.foldl (fun s p => sinsert s (candT p.2, candR p.2)) [],
             assigned.foldl (fun s p => sinsert s (candT p.2, candI p.2)) [],
             0⟩).assigned,
         (improveLoop domains shuffled.reverse max_iters
            ⟨assigned,
             assigned.foldl (fun s p => sinsert s (candT p.2, candR p.2)) [],
             assigned.foldl (fun s p => sinsert s (candT p.2, candI p.2)) [],
             0⟩).improved) := rfl

/-- C1: if `greedy_assign` returns with violation count 0, then the chosen
tuples of distinct sessions pairwise differ in their (timeslot, room) pair
and in their (timeslot, instructor) pair, and the same still holds after
`improve_assignments` runs on that assignment (for any shuffle order and any
iteration budget). -/
theorem no_violation_pairwise_disjoint (vars : List LectureVar)
    (domains : List (String × List Cand)) (shuffled : List LectureVar)
    (max_iters : Nat) (h : (greedy_assign vars domains).2 = 0) :
    (greedy_assign vars domains).1.Pairwise (fun p q => disjC p.2 q.2) ∧
    (improve_assignments (greedy_assign vars domains).1 domains shuffled
        max_iters).1.Pairwise (fun p q => disjC p.2 q.2) := by
  have hg := greedy_GInv_of_no_violation vars domains h
  obtain ⟨hnd, hsub, hpw⟩ := hg
  constructor
  · exact hpw
  · rw [improve_assignments_eq]
    have hinit : IInv ⟨(greedy_assign vars domains).1,
        (greedy_assign vars domains).1.foldl
          (fun s p => sinsert s (candT p.2, candR p.2)) [],
        (greedy_assign vars domains).1.foldl
          (fun s p => sinsert s (candT p.2, candI p.2)) [], 0⟩ := by
      refine ⟨hnd, hpw, ?_, ?_⟩
      · intro x
        rw [sinsert_foldl_mem]
        simp
      · intro x
        rw [sinsert_foldl_mem]
        simp
    exact (improveLoop_IInv domains shuffled.reverse max_iters _ hinit).2.1

/-! ## Concrete reference inputs used to witness the theorems -/

/-- A small clean timetable: one lecture course, one qualified instructor,
one lecture room, two timeslots, one section; the greedy pass places the two
sessions in different timeslots with no violation. -/
def Wcourses : List (String × String) := [("c1", "lec")]
def Winstr : List (String × InstrInfo) := [("i1", ⟨"I1", ["c1"]⟩)]
def Wrooms : List (String × RoomInfo) := [("r1", ⟨"lec", 30⟩)]
def Wts : List String := ["t1", "t2"]
def Wsecs : List SectionRow := [⟨"s1", 1, 10⟩]
def Wcur : List (Int × List String) := [(1, ["c1"])]
def Wvars : List LectureVar :=
  (build_vars_domains Wcourses Winstr Wrooms Wts Wsecs Wcur).1
def Wdoms : List (String × List Cand) :=
  (build_vars_domains Wcourses Winstr Wrooms Wts Wsecs Wcur).2

/-- Witness for C1: on the clean input the greedy violation count is 0 and
both disjointness conclusions hold. -/
theorem no_violation_pairwise_disjoint_witness :
    (greedy_assign Wvars Wdoms).2 = 0 ∧
    ((greedy_assign Wvars Wdoms).1.Pairwise (fun p q => disjC p.2 q.2) ∧
     (improve_assignments (greedy_assign Wvars Wdoms).1 Wdoms [] 5000).1.Pairwise
       (fun p q => disjC p.2 q.2)) :=
  ⟨by decide, no_violation_pairwise_disjoint Wvars Wdoms [] 5000 (by decide)⟩

/-- C7: the greedy pass processes variables in descending student-count order
with a stable tie-break (equal counts keep DomainBuilder emission order), and
each step commits the first candidate of the qualified ++ unqualified
concatenation whose (timeslot, room) and (timeslot, instructor) pairs are
both unoccupied, adding both pairs to the occupancy sets at the commit and
leaving the violation count unchanged. -/
theorem greedy_order_and_first_fit (vars : List LectureVar)
    (domains : List (String × List Cand)) :
    (sortVars vars).Perm vars ∧
    (sortVars vars).Pairwise (fun a b => b.students ≤ a.students) ∧
    (∀ s : Int, (sortVars vars).filter (fun v => v.students == s)
        = vars.filter (fun v => v.students == s)) ∧
    (greedy_assign vars domains).1
        = ((sortVars vars).foldl (greedyStep domains) ⟨[], [], [], 0⟩).assigned ∧
    ∀ (st : GState) (v : LectureVar) (n : Nat) (c : Cand),
      ((domOf domains v.name).filter (fun d => candQ d)
        ++ (domOf domains v.name).filter (fun d => !candQ d)).get? n = some c →
      conflicted st.usedRoom st.usedInstr c = false →
      (∀ m d, m < n → ((domOf domains v.name).filter (fun d => candQ d)
        ++ (domOf domains v.name).filter (fun d => !candQ d)).get? m = some d →
        conflicted st.usedRoom st.usedInstr d = true) →
      greedyStep domains st v
        = { assigned := dinsertA st.assigned v c,
            usedRoom := sinsert st.usedRoom (candT c, candR c),
            usedInstr := sinsert st.usedInstr (candT c, candI c),
            violations := st.violations } := by
  refine ⟨sortVars_perm vars, sortVars_sorted vars, sortVars_stable vars, rfl, ?_⟩
  intro st v n c hget hfree hbefore
  rw [greedyStep_eq]
  have hfind : ((domOf domains v.name).filter (fun d => candQ d)
      ++ (domOf domains v.name).filter (fun d => !candQ d)).find?
        (fun c => !conflicted st.usedRoom st.usedInstr c) = some c := by
    apply find?_first _ _ n c hget
    · rw [hfree]
      rfl
    · intro m d hm hgm
      rw [hbefore m d hm hgm]
      rfl
  rw [hfind]
  rfl

/-- Witness for C7: on the clean input, the first variable's first qualified
candidate is conflict-free and gets committed with both pairs occupied. -/
theorem greedy_order_and_first_fit_witness :
    greedyStep Wdoms ⟨[], [], [], 0⟩ ⟨"c1", "s1", 1, 0, 10⟩
      = { assigned := dinsertA [] ⟨"c1", "s1", 1, 0, 10⟩ ("t1", "r1", "i1", true),
          usedRoom := sinsert [] ("t1", "r1"),
          usedInstr := sinsert [] ("t1", "i1"),
          violations := 0 } :=
  (greedy_order_and_first_fit Wvars Wdoms).2.2.2.2 ⟨[], [], [], 0⟩
    ⟨"c1", "s1", 1, 0, 10⟩ 0 ("t1", "r1", "i1", true) (by decide) (by decide)
    (fun m d hm _ => absurd hm (Nat.not_lt_zero m))

/-- C8: when a variable's domain is non-empty but every candidate conflicts
with the occupancy sets, the greedy step commits the candidate minimizing
the conflict score (1 per occupied pair), ties broken by first occurrence in
domain order, and increments the violation count by exactly 1. -/
theorem fallback_commits_first_minimizer (domains : List (String × List Cand))
    (st : GState) (v : LectureVar)
    (hne : domOf domains v.name ≠ [])
    (hall : ∀ c ∈ domOf domains v.name,
      conflicted st.usedRoom st.usedInstr c = true) :
    ∃ n best, (domOf domains v.name).get? n = some best
      ∧ greedyStep domains st v = commit st v best 1
      ∧ (greedyStep domains st v).violations = st.violations + 1
      ∧ (∀ m d, (domOf domains v.name).get? m = some d →
          score st.usedRoom st.usedInstr best ≤ score st.usedRoom st.usedInstr d)
      ∧ (∀ m d, m < n → (domOf domains v.name).get? m = some d →
          score st.usedRoom st.usedInstr best < score st.usedRoom st.usedInstr d) := by
  have hfind : ((domOf domains v.name).filter (fun d => candQ d)
      ++ (domOf domains v.name).filter (fun d => !candQ d)).find?
        (fun c => !conflicted st.usedRoom st.usedInstr c) = none := by
    rw [List.find?_eq_none]
    intro x hx
    have hxdom : x ∈ domOf domains v.name := by
      rcases List.mem_append.mp hx with h | h
      · exact List.mem_of_mem_filter h
      · exact List.mem_of_mem_filter h
    rw [hall x hxdom]
    simp
  rcases fallbackPick_spec st.usedRoom st.usedInstr (domOf domains v.name) hne
    with ⟨n, best, hget, hpick, hmin, hbef⟩
  have hstep : greedyStep domains st v = commit st v best 1 := by
    rw [greedyStep_eq, hfind, hpick]
  refine ⟨n, best, hget, hstep, ?_, hmin, hbef⟩
  rw [hstep]
  rfl

/-- Scenario used to witness the fallback: a single-candidate domain whose
pairs are both already occupied. -/
def WFdoms : List (String × List Cand) := [("cx_s_L0", [("t1", "r1", "i1", true)])]

/-- Witness for C8: with both pairs occupied, the fallback fires and commits
the score-minimizing candidate with one new violation. -/
theorem fallback_commits_first_minimizer_witness :
    ∃ n best, (domOf WFdoms (LectureVar.name ⟨"cx", "s", 1, 0, 10⟩)).get? n = some best
      ∧ greedyStep WFdoms ⟨[], [("t1", "r1")], [("t1", "i1")], 0⟩
          ⟨"cx", "s", 1, 0, 10⟩
          = commit ⟨[], [("t1", "r1")], [("t1", "i1")], 0⟩ ⟨"cx", "s", 1, 0, 10⟩ best 1
      ∧ (greedyStep WFdoms ⟨[], [("t1", "r1")], [("t1", "i1")], 0⟩
          ⟨"cx", "s", 1, 0, 10⟩).violations
          = (⟨[], [("t1", "r1")], [("t1", "i1")], 0⟩ : GState).violations + 1
      ∧ (∀ m d, (domOf WFdoms (LectureVar.name ⟨"cx", "s", 1, 0, 10⟩)).get? m = some d →
          score [("t1", "r1")] [("t1", "i1")] best ≤ score [("t1", "r1")] [("t1", "i1")] d)
      ∧ (∀ m d, m < n →
          (domOf WFdoms (LectureVar.name ⟨"cx", "s", 1, 0, 10⟩)).get? m = some d →
          score [("t1", "r1")] [("t1", "i1")] best < score [("t1", "r1")] [("t1", "i1")] d) :=
  fallback_commits_first_minimizer WFdoms ⟨[], [("t1", "r1")], [("t1", "i1")], 0⟩
    ⟨"cx", "s", 1, 0, 10⟩ (by decide) (by decide)

/-! ## Totality of the greedy pass (C4) -/

theorem greedyStep_keys (domains : List (String × List Cand)) (st : GState)
    (v : LectureVar) (k : String) :
    k ∈ keysA (greedyStep domains st v).assigned
      ↔ k ∈ keysA st.assigned ∨ k = v.name := by
  rcases greedyStep_cases domains st v with ⟨c, dv, heq, _⟩
  rw [heq]
  exact dinsertA_keys_mem st.assigned v c k

theorem greedyStep_keys_nodup (domains : List (String × List Cand)) (st : GState)
    (v : LectureVar) (h : (keysA st.assigned).Nodup) :
    (keysA (greedyStep domains st v).assigned).Nodup := by
  rcases greedyStep_cases domains st v with ⟨c, dv, heq, _⟩
  rw [heq]
  exact dinsertA_keys_nodup st.assigned v c h

theorem greedyFold_keys (domains : List (String × List Cand)) :
    ∀ (l : List LectureVar) (st : GState) (k : String),
      k ∈ keysA ((l.foldl (greedyStep domains) st).assigned)
        ↔ k ∈ keysA st.assigned ∨ k ∈ l.map LectureVar.name := by
  intro l
  induction l with
  | nil => intro st k; simp
  | cons v rest ih =>
      intro st k
      rw [List.foldl_cons, ih, greedyStep_keys]
      simp only [List.map_cons, List.mem_cons]
      constructor
      · rintro ((h | h) | h)
        · exact Or.inl h
        · exact Or.inr (Or.inl h)
        · exact Or.inr (Or.inr h)
      · rintro (h | h | h)
        · exact Or.inl (Or.inl h)
        · exact Or.inl (Or.inr h)
        · exact Or.inr h

theorem greedyFold_keys_nodup (domains : List (String × List Cand)) :
    ∀ (l : List LectureVar) (st : GState), (keysA st.assigned).Nodup →
      (keysA ((l.foldl (greedyStep domains) st).assigned)).Nodup := by
  intro l
  induction l with
  | nil => intro st h; exact h
  | cons v rest ih =>
      intro st h
      rw [List.foldl_cons]
      exact ih _ (greedyStep_keys_nodup domains st v h)

/-- C4: whenever every generated session has a non-empty domain,
`greedy_assign` assigns every session exactly one tuple — its key set is
exactly the set of variable names, with no duplicate keys — and each session
then appears exactly once among the exported rows. -/
theorem greedy_totality (vars : List LectureVar)
    (domains : List (String × List Cand))
    (timeslot_info : List (String × TimeslotInfo))
    (instructors : List (String × InstrInfo))
    (hne : ∀ v ∈ vars, domOf domains v.name ≠ []) :
    (keysA (greedy_assign vars domains).1).Nodup ∧
    (∀ k, k ∈ keysA (greedy_assign vars domains).1 ↔ k ∈ vars.map LectureVar.name) ∧
    (export_rows (greedy_assign vars domains).1 timeslot_info instructors).map
        (fun r => r.var_name) = keysA (greedy_assign vars domains).1 := by
  refine ⟨?_, ?_, ?_⟩
  · exact greedyFold_keys_nodup domains (sortVars vars) ⟨[], [], [], 0⟩ List.nodup_nil
  · intro k
    rw [show (greedy_assign vars domains).1
        = ((sortVars vars).foldl (greedyStep domains) ⟨[], [], [], 0⟩).assigned from rfl]
    rw [greedyFold_keys]
    simp only [keysA, List.map_nil, List.not_mem_nil, false_or]
    constructor
    · intro h
      rcases List.mem_map.mp h with ⟨v, hv, rfl⟩
      exact List.mem_map.mpr ⟨v, (sortVars_perm vars).mem_iff.mp hv, rfl⟩
    · intro h
      rcases List.mem_map.mp h with ⟨v, hv, rfl⟩
      exact List.mem_map.mpr ⟨v, (sortVars_perm vars).mem_iff.mpr hv, rfl⟩
  · unfold export_rows keysA
    rw [List.map_map]
    rfl

/-- Witness for C4: on the clean input all domains are non-empty, the key
set is exactly the two generated session names, and export emits them once
each. -/
theorem greedy_totality_witness :
    (keysA (greedy_assign Wvars Wdoms).1).Nodup ∧
    (∀ k, k ∈ keysA (greedy_assign Wvars Wdoms).1 ↔ k ∈ Wvars.map LectureVar.name) ∧
    (export_rows (greedy_assign Wvars Wdoms).1 [] Winstr).map
        (fun r => r.var_name) = keysA (greedy_assign Wvars Wdoms).1 :=
  greedy_totality Wvars Wdoms [] Winstr (by decide)

/-! ## Capacity/type safety of committed assignments (C2) -/

theorem mem_dinsertA_named (m : List (LectureVar × Cand)) (v : LectureVar)
    (c : Cand) (p : LectureVar × Cand) (h : p ∈ dinsertA m v c) :
    p ∈ m ∨ (p.1.name = v.name ∧ p.2 = c) := by
  unfold dinsertA at h
  split at h
  · rcases List.mem_map.mp h with ⟨q, hq, hqe⟩
    by_cases hk : q.1.name = v.name
    · right
      rw [← hqe]
      simp [hk]
    · left
      rw [← hqe]
      rw [if_neg (by simpa using hk)]
      exact hq
  · rcases List.mem_append.mp h with h | h
    · exact Or.inl h
    · rcases List.mem_singleton.mp h with rfl
      exact Or.inr ⟨rfl, rfl⟩

theorem mem_dinsertD (m : List (String × List Cand)) (k : String)
    (d : List Cand) (p : String × List Cand) (h : p ∈ dinsertD m k d) :
    p ∈ m ∨ p = (k, d) := by
  unfold dinsertD at h
  split at h
  · rcases List.mem_map.mp h with ⟨q, hq, hqe⟩
    by_cases hk : q.1 = k
    · right
      rw [← hqe]
      simp [hk]
    · left
      rw [← hqe]
      rw [if_neg (by simpa using hk)]
      exact hq
  · rcases List.mem_append.mp h with h | h
    · exact Or.inl h
    · rcases List.mem_singleton.mp h with rfl
      exact Or.inr rfl

theorem lookup_mem {α : Type _} [BEq α] [LawfulBEq α] {β : Type _}
    (l : List (α × β)) (k : α) (v : β) (h : List.lookup k l = some v) :
    (k, v) ∈ l := by
  induction l with
  | nil => cases h
  | cons p rest ih =>
      rw [List.lookup_cons] at h
      split at h
      · next heq =>
          cases h
          have : k = p.1 := by simpa using heq
          rw [this]
          exact List.mem_cons.mpr (Or.inl rfl)
      · exact List.mem_cons.mpr (Or.inr (ih h))

/-- A committed tuple is either a member of the variable's domain or the
synthetic tuple of an empty domain. -/
def GoodEntry (domains : List (String × List Cand)) (p : LectureVar × Cand) :
    Prop :=
  p.2 ∈ domOf domains p.1.name
    ∨ (domOf domains p.1.name = [] ∧ p.2 = ("ts0", "room0", "instr0", false))

theorem greedyFold_good (domains : List (String × List Cand)) :
    ∀ (l : List LectureVar) (st : GState),
      (∀ p ∈ st.assigned, GoodEntry domains p) →
      ∀ p ∈ (l.foldl (greedyStep domains) st).assigned, GoodEntry domains p := by
  intro l
  induction l with
  | nil => intro st h; exact h
  | cons v rest ih =>
      intro st h
      rw [List.foldl_cons]
      refine ih _ ?_
      intro p hp
      rcases greedyStep_cases domains st v with ⟨chosen, dv, heq, hcase⟩
      rw [heq] at hp
      rcases mem_dinsertA_named st.assigned v chosen p hp with hp2 | ⟨hpn, hpc⟩
      · exact h p hp2
      · unfold GoodEntry
        rw [hpn, hpc]
        rcases hcase with ⟨_, _, hmem⟩ | ⟨_, hmem⟩ | ⟨_, hempty, hsyn⟩
        · exact Or.inl hmem
        · exact Or.inl hmem
        · exact Or.inr ⟨hempty, hsyn⟩

theorem greedy_assign_good (vars : List LectureVar)
    (domains : List (String × List Cand)) :
    ∀ p ∈ (greedy_assign vars domains).1, GoodEntry domains p :=
  greedyFold_good domains (sortVars vars) ⟨[], [], [], 0⟩
    (fun p hp => absurd hp (List.not_mem_nil p))

theorem mem_domFor (timeslots : List String) (rooms : List (String × RoomInfo))
    (instructors : List (String × InstrInfo)) (ctype cid : String)
    (students : Int) (c : Cand) :
    c ∈ domFor timeslots rooms instructors ctype cid students
      ↔ ∃ t ∈ timeslots, ∃ rp ∈ rooms,
          compatible_room ctype rp.2.rtype = true ∧ students ≤ rp.2.capacity ∧
          ∃ ip ∈ instructors, c = (t, rp.1, ip.1, ip.2.quals.contains cid) := by
  unfold domFor
  simp only [List.mem_flatMap]
  constructor
  · rintro ⟨t, ht, rp, hrp, hc⟩
    refine ⟨t, ht, rp, hrp, ?_⟩
    split at hc
    · next hcond =>
        rw [Bool.and_eq_true, decide_eq_true_iff] at hcond
        rcases List.mem_map.mp hc with ⟨ip, hip, hipe⟩
        exact ⟨hcond.1, hcond.2, ip, hip, hipe.symm⟩
    · exact absurd hc (List.not_mem_nil c)
  · rintro ⟨t, ht, rp, hrp, hcompat, hcap, ip, hip, rfl⟩
    refine ⟨t, ht, rp, hrp, ?_⟩
    rw [if_pos (by rw [Bool.and_eq_true, decide_eq_true_iff]; exact ⟨hcompat, hcap⟩)]
    exact List.mem_map.mpr ⟨ip, hip, rfl⟩

/-- Generic invariant for folds whose second component is a chain of
`dinsertD` inserts. -/
theorem fold_dinsertD_entries {γ : Type _} (key : γ → String)
    (val : γ → List Cand) (g : List LectureVar → γ → List LectureVar)
    (P : String × List Cand → Prop) (hnew : ∀ x : γ, P (key x, val x)) :
    ∀ (l : List γ) (acc : List LectureVar × List (String × List Cand)),
      (∀ p ∈ acc.2, P p) →
      ∀ p ∈ (l.foldl (fun a x => (g a.1 x, dinsertD a.2 (key x) (val x))) acc).2,
        P p := by
  intro l
  induction l with
  | nil => intro acc hacc; exact hacc
  | cons x rest ih =>
      intro acc hacc
      rw [List.foldl_cons]
      refine ih _ ?_
      intro p hp
      rcases mem_dinsertD _ _ _ p hp with hp2 | hp2
      · exact hacc p hp2
      · rw [hp2]
        exact hnew x

/-- The provenance of one binding of the built domains dictionary: it is the
`domFor` domain of a session generated for some section and curriculum
course. -/
def DomEntryOK (courses : List (String × String))
    (instructors : List (String × InstrInfo)) (rooms : List (String × RoomInfo))
    (timeslots : List String) (sections : List SectionRow)
    (curriculum : List (Int × List String)) (p : String × List Cand) : Prop :=
  ∃ sec ∈ sections, ∃ cid ∈ curricGet curriculum sec.year, ∃ i : Nat,
    p.1 = LectureVar.name ⟨cid, sec.section_id, sec.year, i, sec.students⟩ ∧
    p.2 = domFor timeslots rooms instructors
      ((List.lookup cid courses).getD "") cid sec.students

theorem build_domains_entries (courses : List (String × String))
    (instructors : List (String × InstrInfo)) (rooms : List (String × RoomInfo))
    (timeslots : List String) (sections : List SectionRow)
    (curriculum : List (Int × List String)) :
    ∀ p ∈ (build_vars_domains courses instructors rooms timeslots sections
        curriculum).2,
      DomEntryOK courses instructors rooms timeslots sections curriculum p := by
  unfold build_vars_domains
  suffices h : ∀ (secs : List SectionRow), (∀ s ∈ secs, s ∈ sections) →
      ∀ (acc : List LectureVar × List (String × List Cand)),
      (∀ p ∈ acc.2,
        DomEntryOK courses instructors rooms timeslots sections curriculum p) →
      ∀ p ∈ (secs.foldl (fun acc sec =>
          (curricGet curriculum sec.year).foldl (fun acc2 cid =>
            let ctype := (List.lookup cid courses).getD ""
            (List.range (sessionCount ctype)).foldl (fun acc3 i =>
              let v : LectureVar := ⟨cid, sec.section_id, sec.year, i, sec.students⟩
              (acc3.1 ++ [v],
               dinsertD acc3.2 v.name
                 (domFor timeslots rooms instructors ctype cid sec.students)))
              acc2) acc) acc).2,
        DomEntryOK courses instructors rooms timeslots sections curriculum p by
    exact h sections (fun s hs => hs) ([], [])
      (fun p hp => absurd hp (List.not_mem_nil p))
  intro secs
  induction secs with
  | nil => intro _ acc hacc; exact hacc
  | cons sec rest ih =>
      intro hsub acc hacc
      rw [List.foldl_cons]
      refine ih (fun s hs => hsub s (List.mem_cons.mpr (Or.inr hs))) _ ?_
      have hsec : sec ∈ sections := hsub sec (List.mem_cons.mpr (Or.inl rfl))
      suffices h2 : ∀ (cids : List String),
          (∀ c ∈ cids, c ∈ curricGet curriculum sec.year) →
          ∀ (acc2 : List LectureVar × List (String × List Cand)),
          (∀ p ∈ acc2.2,
            DomEntryOK courses instructors rooms timeslots sections curriculum p) →
          ∀ p ∈ (cids.foldl (fun acc2 cid =>
              let ctype := (List.lookup cid courses).getD ""
              (List.range (sessionCount ctype)).foldl (fun acc3 i =>
                let v : LectureVar := ⟨cid, sec.section_id, sec.year, i, sec.students⟩
                (acc3.1 ++ [v],
                 dinsertD acc3.2 v.name
                   (domFor timeslots rooms instructors ctype cid sec.students)))
                acc2) acc2).2,
            DomEntryOK courses instructors rooms timeslots sections curriculum p by
        exact h2 _ (fun c hc => hc) acc hacc
      intro cids
      induction cids with
      | nil => intro _ acc2 hacc2; exact hacc2
      | cons cid crest ih2 =>
          intro hsub2 acc2 hacc2
          rw [List.foldl_cons]
          refine ih2 (fun c hc => hsub2 c (List.mem_cons.mpr (Or.inr hc))) _ ?_
          have hcid : cid ∈ curricGet curriculum sec.year :=
            hsub2 cid (List.mem_cons.mpr (Or.inl rfl))
          exact fold_dinsertD_entries
            (fun i => LectureVar.name ⟨cid, sec.section_id, sec.year, i, sec.students⟩)
            (fun _ => domFor timeslots rooms instructors
              ((List.lookup cid courses).getD "") cid sec.students)
            (fun a i => a ++ [⟨cid, sec.section_id, sec.year, i, sec.students⟩])
            (DomEntryOK courses instructors rooms timeslots sections curriculum)
            (fun i => ⟨sec, hsec, cid, hcid, i, rfl, rfl⟩)
            (List.range (sessionCount ((List.lookup cid courses).getD "")))
            acc2 hacc2

/-- C2 (amended): for every session whose domain is non-empty, any tuple
committed by `greedy_assign` — including ConflictFallback picks — names a
room of the rooms table whose capacity covers the originating section's
student count and whose type is domain-compatible with the course type.
(The unamended claim fails for sessions with empty domains, which receive
the synthetic tuple.) -/
theorem committed_capacity_type_safety (courses : List (String × String))
    (instructors : List (String × InstrInfo)) (rooms : List (String × RoomInfo))
    (timeslots : List String) (sections : List SectionRow)
    (curriculum : List (Int × List String)) (p : LectureVar × Cand)
    (hp : p ∈ (greedy_assign
      (build_vars_domains courses instructors rooms timeslots sections curriculum).1
      (build_vars_domains courses instructors rooms timeslots sections curriculum).2).1)
    (hne : domOf (build_vars_domains courses instructors rooms timeslots sections
      curriculum).2 p.1.name ≠ []) :
    ∃ sec ∈ sections, ∃ cid ∈ curricGet curriculum sec.year, ∃ i : Nat,
      p.1.name = LectureVar.name ⟨cid, sec.section_id, sec.year, i, sec.students⟩ ∧
      ∃ rinfo, (candR p.2, rinfo) ∈ rooms ∧
        compatible_room ((List.lookup cid courses).getD "") rinfo.rtype = true ∧
        sec.students ≤ rinfo.capacity := by
  have hgood := greedy_assign_good _ _ p hp
  rcases hgood with hmem | ⟨hempty, _⟩
  · cases hlk : List.lookup p.1.name (build_vars_domains courses instructors rooms
        timeslots sections curriculum).2 with
    | none =>
        unfold domOf at hmem
        rw [hlk] at hmem
        exact absurd hmem (List.not_mem_nil _)
    | some dom =>
        have hdentry := build_domains_entries courses instructors rooms timeslots
          sections curriculum (p.1.name, dom) (lookup_mem _ _ _ hlk)
        rcases hdentry with ⟨sec, hsec, cid, hcid, i, hname, hdom⟩
        dsimp only at hname hdom
        unfold domOf at hmem
        rw [hlk] at hmem
        simp only [Option.getD_some] at hmem
        rw [hdom] at hmem
        rcases (mem_domFor _ _ _ _ _ _ _).mp hmem
          with ⟨t, ht, rp, hrp, hcompat, hcap, ip, hip, hc⟩
        refine ⟨sec, hsec, cid, hcid, i, hname, rp.2, ?_, hcompat, hcap⟩
        rw [hc]
        simpa using hrp
  · exact absurd hempty hne

/-- Input with a session whose domain is empty: the only room is too small,
so the capacity filter leaves nothing. -/
def CXcourses : List (String × String) := [("c1", "lab")]
def CXrooms : List (String × RoomInfo) := [("r1", ⟨"lab", 5⟩)]
def CXts : List String := ["t1"]
def CXsecs : List SectionRow := [⟨"s1", 1, 10⟩]
def CXcur : List (Int × List String) := [(1, ["c1"])]
def CXvars : List LectureVar :=
  (build_vars_domains CXcourses Winstr CXrooms CXts CXsecs CXcur).1
def CXdoms : List (String × List Cand) :=
  (build_vars_domains CXcourses Winstr CXrooms CXts CXsecs CXcur).2

/-- Counterexample to C2 as stated: with an empty domain the code commits
the synthetic tuple, whose room `"room0"` is not in the rooms table at all,
so no capacity or type guarantee holds for that committed assignment. -/
theorem capacity_type_counterexample :
    (greedy_assign CXvars CXdoms).1
      = [(⟨"c1", "s1", 1, 0, 10⟩, ("ts0", "room0", "instr0", false))] ∧
    List.lookup "room0" CXrooms = none := by
  constructor
  · decide
  · decide

/-- Witness for the amended C2 on the clean input. -/
theorem committed_capacity_type_safety_witness :
    ∃ sec ∈ Wsecs, ∃ cid ∈ curricGet Wcur sec.year, ∃ i : Nat,
      (⟨"c1", "s1", 1, 0, 10⟩ : LectureVar).name
        = LectureVar.name ⟨cid, sec.section_id, sec.year, i, sec.students⟩ ∧
      ∃ rinfo, (candR ("t1", "r1", "i1", true), rinfo) ∈ Wrooms ∧
        compatible_room ((List.lookup cid Wcourses).getD "") rinfo.rtype = true ∧
        sec.students ≤ rinfo.capacity :=
  committed_capacity_type_safety Wcourses Winstr Wrooms Wts Wsecs Wcur
    (⟨"c1", "s1", 1, 0, 10⟩, ("t1", "r1", "i1", true)) (by decide) (by decide)

/-- C3 evidence: on the empty-domain input the code does not raise any
domain-exhaustion error; it commits the synthesized
`("ts0", "room0", "instr0")` tuple for the session and counts one
violation. -/
theorem empty_domain_synthesizes :
    greedy_assign CXvars CXdoms
      = ([(⟨"c1", "s1", 1, 0, 10⟩, ("ts0", "room0", "instr0", false))], 1) ∧
    domOf CXdoms (LectureVar.name ⟨"c1", "s1", 1, 0, 10⟩) = [] := by
  constructor
  · decide
  · decide

/-! ## Domain membership vs the spec's compatibility predicate (C5, C10) -/

/-- The compatibility disjunction exactly as the spec words it (equal, both
lecture-like, both lab-like, both project-like, or room lecture-like), for
comparison with the source's `compatible_room`. -/
def claim_compatible (course_type room_type : String) : Bool :=
  let c := strLower course_type
  let r := strLower room_type
  c == r || (strContains c "lec" && strContains r "lec") ||
    (strContains c "lab" && strContains r "lab") ||
    (strContains c "project" && strContains r "project") || strContains r "lec"

theorem compatible_room_eq_claim (ct rt : String) :
    compatible_room ct rt = (claim_compatible ct rt || strLower ct == "") := by
  simp only [compatible_room, claim_compatible]
  cases h0 : (strLower ct == "") <;>
    cases h1 : (strLower ct == strLower rt) <;>
      cases h2 : (strContains (strLower ct) "lec" && strContains (strLower rt) "lec") <;>
        cases h3 : (strContains (strLower ct) "lab" && strContains (strLower rt) "lab") <;>
          cases h4 : (strContains (strLower ct) "project"
              && strContains (strLower rt) "project") <;>
            cases h5 : (strContains (strLower rt) "lec") <;>
              simp [h0, h1, h2, h3, h4, h5]

/-- Input whose course has the empty type string: the lab room passes the
compatibility filter even though the spec's disjunction rejects it. -/
def X5courses : List (String × String) := [("c1", "")]
def X5rooms : List (String × RoomInfo) := [("r1", ⟨"lab", 30⟩)]
def X5doms : List (String × List Cand) :=
  (build_vars_domains X5courses Winstr X5rooms CXts Wsecs Wcur).2

/-- Counterexample to C5 as stated: the tuple is a domain member although
the course type is the empty string and the spec's compatibility
disjunction evaluates to false against the `"lab"` room type. -/
theorem domain_membership_counterexample :
    ("t1", "r1", "i1", true) ∈ domOf X5doms
        (LectureVar.name ⟨"c1", "s1", 1, 0, 10⟩) ∧
    claim_compatible "" "lab" = false ∧
    List.lookup "c1" X5courses = some "" ∧
    (List.lookup "r1" X5rooms).map (fun ri => ri.rtype) = some "lab" := by
  refine ⟨?_, ?_, ?_, ?_⟩ <;> decide

/-- C5 (amended): a tuple belongs to a session's built domain iff its
timeslot, room and instructor come from the reference tables, the room type
satisfies the spec's compatibility disjunction **or the course type is
empty**, and the capacity covers the student count; instructor
qualification never filters, it only sets the tuple's flag. -/
theorem domain_membership_characterization (courses : List (String × String))
    (instructors : List (String × InstrInfo)) (rooms : List (String × RoomInfo))
    (timeslots : List String) (sections : List SectionRow)
    (curriculum : List (Int × List String)) (name : String) (dom : List Cand)
    (hlk : List.lookup name (build_vars_domains courses instructors rooms
      timeslots sections curriculum).2 = some dom) :
    ∃ sec ∈ sections, ∃ cid ∈ curricGet curriculum sec.year, ∃ i : Nat,
      name = LectureVar.name ⟨cid, sec.section_id, sec.year, i, sec.students⟩ ∧
      ∀ c : Cand, c ∈ dom ↔
        ∃ t ∈ timeslots, ∃ rp ∈ rooms,
          (claim_compatible ((List.lookup cid courses).getD "") rp.2.rtype = true
            ∨ strLower ((List.lookup cid courses).getD "") = "") ∧
          sec.students ≤ rp.2.capacity ∧
          ∃ ip ∈ instructors, c = (t, rp.1, ip.1, ip.2.quals.contains cid) := by
  have hdentry := build_domains_entries courses instructors rooms timeslots
    sections curriculum (name, dom) (lookup_mem _ _ _ hlk)
  rcases hdentry with ⟨sec, hsec, cid, hcid, i, hname, hdom⟩
  dsimp only at hname hdom
  refine ⟨sec, hsec, cid, hcid, i, hname, ?_⟩
  intro c
  rw [hdom, mem_domFor]
  have hiff : ∀ rt : String,
      compatible_room ((List.lookup cid courses).getD "") rt = true
        ↔ (claim_compatible ((List.lookup cid courses).getD "") rt = true
            ∨ strLower ((List.lookup cid courses).getD "") = "") := by
    intro rt
    rw [compatible_room_eq_claim, Bool.or_eq_true]
    constructor
    · rintro (h | h)
      · exact Or.inl h
      · exact Or.inr (by simpa using h)
    · rintro (h | h)
      · exact Or.inl h
      · exact Or.inr (by simpa using h)
  constructor
  · rintro ⟨t, ht, rp, hrp, hcompat, hcap, hrest⟩
    exact ⟨t, ht, rp, hrp, (hiff rp.2.rtype).mp hcompat, hcap, hrest⟩
  · rintro ⟨t, ht, rp, hrp, hcompat, hcap, hrest⟩
    exact ⟨t, ht, rp, hrp, (hiff rp.2.rtype).mpr hcompat, hcap, hrest⟩

/-- Witness for the amended C5 on the clean input. -/
theorem domain_membership_characterization_witness :
    ∃ sec ∈ Wsecs, ∃ cid ∈ curricGet Wcur sec.year, ∃ i : Nat,
      LectureVar.name ⟨"c1", "s1", 1, 0, 10⟩
        = LectureVar.name ⟨cid, sec.section_id, sec.year, i, sec.students⟩ ∧
      ∀ c : Cand, c ∈ [(("t1" : String), ("r1" : String), ("i1" : String), true),
          (("t2" : String), ("r1" : String), ("i1" : String), true)] ↔
        ∃ t ∈ Wts, ∃ rp ∈ Wrooms,
          (claim_compatible ((List.lookup cid Wcourses).getD "") rp.2.rtype = true
            ∨ strLower ((List.lookup cid Wcourses).getD "") = "") ∧
          sec.students ≤ rp.2.capacity ∧
          ∃ ip ∈ Winstr, c = (t, rp.1, ip.1, ip.2.quals.contains cid) :=
  domain_membership_characterization Wcourses Winstr Wrooms Wts Wsecs Wcur
    (LectureVar.name ⟨"c1", "s1", 1, 0, 10⟩)
    [(("t1" : String), ("r1" : String), ("i1" : String), true),
     (("t2" : String), ("r1" : String), ("i1" : String), true)] (by decide)

/-- C10: a curriculum course id absent from the courses table gets the empty
type string, hence one generated session, universal room-type compatibility,
and a domain filtered by capacity alone. -/
theorem missing_course_defaults (courses : List (String × String))
    (instructors : List (String × InstrInfo)) (rooms : List (String × RoomInfo))
    (timeslots : List String) (sec : SectionRow) (cid : String)
    (h : List.lookup cid courses = none) :
    (List.lookup cid courses).getD "" = "" ∧
    sessionsFor courses sec cid = [⟨cid, sec.section_id, sec.year, 0, sec.students⟩] ∧
    (∀ rt : String, compatible_room "" rt = true) ∧
    (∀ c : Cand, c ∈ domFor timeslots rooms instructors
        ((List.lookup cid courses).getD "") cid sec.students ↔
      ∃ t ∈ timeslots, ∃ rp ∈ rooms, sec.students ≤ rp.2.capacity ∧
        ∃ ip ∈ instructors, c = (t, rp.1, ip.1, ip.2.quals.contains cid)) := by
  have h0 : (List.lookup cid courses).getD "" = "" := by rw [h]; rfl
  refine ⟨h0, ?_, ?_, ?_⟩
  · unfold sessionsFor
    rw [h0]
    rfl
  · intro rt
    rfl
  · intro c
    rw [h0, mem_domFor]
    constructor
    · rintro ⟨t, ht, rp, hrp, _, hcap, hrest⟩
      exact ⟨t, ht, rp, hrp, hcap, hrest⟩
    · rintro ⟨t, ht, rp, hrp, hcap, hrest⟩
      exact ⟨t, ht, rp, hrp, rfl, hcap, hrest⟩

/-- Witness for C10: `"cx"` is not in the clean input's courses table. -/
theorem missing_course_defaults_witness :
    (List.lookup "cx" Wcourses).getD "" = "" ∧
    sessionsFor Wcourses ⟨"s1", 1, 10⟩ "cx"
      = [⟨"cx", "s1", 1, 0, 10⟩] ∧
    (∀ rt : String, compatible_room "" rt = true) ∧
    (∀ c : Cand, c ∈ domFor Wts Wrooms Winstr
        ((List.lookup "cx" Wcourses).getD "") "cx" (10 : Int) ↔
      ∃ t ∈ Wts, ∃ rp ∈ Wrooms, (10 : Int) ≤ rp.2.capacity ∧
        ∃ ip ∈ Winstr, c = (t, rp.1, ip.1, ip.2.quals.contains "cx")) :=
  missing_course_defaults Wcourses Winstr Wrooms Wts ⟨"s1", 1, 10⟩ "cx" (by decide)

/-! ## Monotonicity of the improvement pass (C9) -/

/-- Number of sessions currently holding a qualified tuple. -/
def qualCount (m : List (LectureVar × Cand)) : Nat :=
  (m.filter (fun p => candQ p.2)).length

theorem filter_length_le_map {α : Type _} (g : α → α) (p : α → Bool)
    (h : ∀ x, p x = true → p (g x) = true) (l : List α) :
    (l.filter p).length ≤ ((l.map g).filter p).length := by
  induction l with
  | nil => exact le_refl _
  | cons x xs ih =>
      rw [List.map_cons, List.filter_cons, List.filter_cons]
      cases hx : p x with
      | true =>
          rw [if_pos rfl, if_pos (h x hx)]
          exact Nat.succ_le_succ ih
      | false =>
          rw [if_neg (by simp)]
          by_cases hgx : p (g x) = true
          · rw [if_pos hgx]
            exact le_trans ih (Nat.le_succ _)
          · rw [if_neg hgx]
            exact ih

theorem qualCount_map_replace_le (m : List (LectureVar × Cand)) (v : LectureVar)
    (f : Cand) (hq : candQ f = true) :
    qualCount m ≤ qualCount (m.map (fun p => if p.1.name == v.name then (p.1, f) else p)) := by
  unfold qualCount
  refine filter_length_le_map _ _ ?_ m
  intro x hx
  by_cases hk : (x.1.name == v.name) = true
  · rw [if_pos hk]
    exact hq
  · rw [if_neg hk]
    exact hx

theorem qualCount_dinsertA_of_qual (m : List (LectureVar × Cand)) (v : LectureVar)
    (f : Cand) (hq : candQ f = true) :
    qualCount m ≤ qualCount (dinsertA m v f) := by
  unfold dinsertA
  split
  · exact qualCount_map_replace_le m v f hq
  · unfold qualCount
    rw [List.filter_append]
    simp [hq]

theorem improveStep_qualCount (domains : List (String × List Cand)) (st : IState)
    (v : LectureVar) :
    qualCount st.assigned ≤ qualCount (improveStep domains st v).assigned := by
  rw [improveStep_eq]
  cases hcur : dlookupA st.assigned v.name with
  | none => exact le_refl _
  | some cur =>
      dsimp only
      cases hfind : (domOf domains v.name).find? (fun opt =>
          candQ opt &&
          !((st.roomTs.contains (candT opt, candR opt) &&
              !(candT opt == candT cur && candR opt == candR cur)) ||
            (st.instrTs.contains (candT opt, candI opt) &&
              !(candT opt == candT cur && candI opt == candI cur)))) with
      | none => exact le_refl _
      | some f =>
          dsimp only
          have hfq : candQ f = true := by
            have hf := List.find?_some hfind
            rw [Bool.and_eq_true] at hf
            exact hf.1
          exact qualCount_dinsertA_of_qual st.assigned v f hfq

theorem improveStep_lookup_other (domains : List (String × List Cand))
    (st : IState) (v : LectureVar) (k : String) (hk : k ≠ v.name) :
    dlookupA (improveStep domains st v).assigned k = dlookupA st.assigned k := by
  rw [improveStep_eq]
  cases hcur : dlookupA st.assigned v.name with
  | none => rfl
  | some cur =>
      dsimp only
      cases hfind : (domOf domains v.name).find? (fun opt =>
          candQ opt &&
          !((st.roomTs.contains (candT opt, candR opt) &&
              !(candT opt == candT cur && candR opt == candR cur)) ||
            (st.instrTs.contains (candT opt, candI opt) &&
              !(candT opt == candT cur && candI opt == candI cur)))) with
      | none => rfl
      | some f =>
          dsimp only
          rw [dlookupA_dinsertA, if_neg hk]

theorem improveLoop_qualCount (domains : List (String × List Cand)) :
    ∀ (l : List LectureVar) (fuel : Nat) (st : IState),
      qualCount st.assigned ≤ qualCount (improveLoop domains l fuel st).assigned := by
  intro l
  induction l with
  | nil => intro fuel st; cases fuel <;> exact le_refl _
  | cons v rest ih =>
      intro fuel st
      cases fuel with
      | zero => exact le_refl _
      | succ fuel =>
          exact le_trans (improveStep_qualCount domains st v) (ih fuel _)

theorem improveLoop_lookup_notin (domains : List (String × List Cand)) :
    ∀ (l : List LectureVar) (fuel : Nat) (st : IState) (k : String),
      (∀ v ∈ l, v.name ≠ k) →
      dlookupA (improveLoop domains l fuel st).assigned k
        = dlookupA st.assigned k := by
  intro l
  induction l with
  | nil => intro fuel st k _; cases fuel <;> rfl
  | cons v rest ih =>
      intro fuel st k hl
      cases fuel with
      | zero => rfl
      | succ fuel =>
          rw [show improveLoop domains (v :: rest) (fuel + 1) st
              = improveLoop domains rest fuel (improveStep domains st v) from rfl]
          rw [ih fuel _ k (fun w hw => hl w (List.mem_cons.mpr (Or.inr hw)))]
          exact improveStep_lookup_other domains st v k
            (fun hcon => hl v (List.mem_cons.mpr (Or.inl rfl)) hcon.symm)

theorem dlookupA_of_mem_nodup (m : List (LectureVar × Cand))
    (hnd : (keysA m).Nodup) (p : LectureVar × Cand) (hp : p ∈ m) :
    dlookupA m p.1.name = some p.2 := by
  induction m with
  | nil => exact absurd hp (List.not_mem_nil p)
  | cons a rest ih =>
      have hnd2 : (a.1.name :: keysA rest).Nodup := by
        unfold keysA at hnd ⊢
        rw [List.map_cons] at hnd
        exact hnd
      rcases List.mem_cons.mp hp with rfl | hp2
      · unfold dlookupA
        rw [List.find?_cons]
        rw [show (p.1.name == p.1.name) = true from by simp]
        rfl
      · unfold dlookupA
        rw [List.find?_cons]
        rw [show (a.1.name == p.1.name) = false from ?_]
        · exact ih (List.nodup_cons.mp hnd2).2 hp2
        · simp only [beq_eq_false_iff_ne, ne_eq]
          intro hcon
          have hmem2 : p.1.name ∈ keysA rest := List.mem_map.mpr ⟨p, hp2, rfl⟩
          rw [← hcon] at hmem2
          exact (List.nodup_cons.mp hnd2).1 hmem2

/-- The full pipeline as orchestrated in src/test.py lines 389-393: build,
greedy assignment, improvement; the run's violation count is the one
produced by the greedy pass. -/
def run_pipeline (courses : List (String × String))
    (instructors : List (String × InstrInfo)) (rooms : List (String × RoomInfo))
    (timeslots : List String) (sections : List SectionRow)
    (curriculum : List (Int × List String)) (shuffled : List LectureVar)
    (max_iters : Nat) : List (LectureVar × Cand) × Nat × Nat :=
  let bd := build_vars_domains courses instructors rooms timeslots sections curriculum
  let ga := greedy_assign bd.1 bd.2
  let ia := improve_assignments ga.1 bd.2 shuffled max_iters
  (ia.1, ga.2, ia.2)

/-- C9 (amended): `improve_assignments` never decreases the number of
sessions assigned a qualified tuple, and every session whose current tuple
is qualified keeps its assignment unchanged; the improvable set is the set
of sessions holding *unqualified* tuples, so a ConflictFallback commitment
is protected only when its tuple is qualified (an unqualified fallback
commitment may be reassigned).  The run's violation count is produced by
`greedy_assign` and is never changed by the improvement pass. -/
theorem improve_monotone_qualified (assigned : List (LectureVar × Cand))
    (domains : List (String × List Cand)) (shuffled : List LectureVar)
    (max_iters : Nat) (hnd : (keysA assigned).Nodup)
    (hperm : shuffled.Perm (unqualifiedOf assigned)) :
    (qualCount assigned
        ≤ qualCount (improve_assignments assigned domains shuffled max_iters).1) ∧
    (∀ k c, dlookupA assigned k = some c → candQ c = true →
      dlookupA (improve_assignments assigned domains shuffled max_iters).1 k
        = some c) ∧
    (∀ (courses : List (String × String)) (instructors : List (String × InstrInfo))
        (rooms : List (String × RoomInfo)) (timeslots : List String)
        (sections : List SectionRow) (curriculum : List (Int × List String))
        (shuffled2 : List LectureVar) (max2 : Nat),
      (run_pipeline courses instructors rooms timeslots sections curriculum
          shuffled2 max2).2.1
        = (greedy_assign
            (build_vars_domains courses instructors rooms timeslots sections
              curriculum).1
            (build_vars_domains courses instructors rooms timeslots sections
              curriculum).2).2) := by
  refine ⟨?_, ?_, fun _ _ _ _ _ _ _ _ => rfl⟩
  · rw [improve_assignments_eq]
    dsimp only
    exact improveLoop_qualCount domains shuffled.reverse max_iters
      ⟨assigned, assigned.foldl (fun s p => sinsert s (candT p.2, candR p.2)) [],
       assigned.foldl (fun s p => sinsert s (candT p.2, candI p.2)) [], 0⟩
  · intro k c hk hq
    rw [improve_assignments_eq]
    dsimp only
    have hnames : ∀ v ∈ shuffled.reverse, v.name ≠ k := by
      intro v hv hcon
      have hv2 : v ∈ unqualifiedOf assigned :=
        hperm.mem_iff.mp (List.mem_reverse.mp hv)
      unfold unqualifiedOf at hv2
      rcases List.mem_map.mp hv2 with ⟨p, hp, hpv⟩
      have hpf := List.mem_filter.mp hp
      have hlp : dlookupA assigned p.1.name = some p.2 :=
        dlookupA_of_mem_nodup assigned hnd p hpf.1
      rw [hpv, hcon, hk] at hlp
      cases hlp
      rw [hq] at hpf
      simpa using hpf.2
    rw [improveLoop_lookup_notin domains shuffled.reverse max_iters _ k hnames]
    exact hk

/-- Witness for the amended C9 on the clean input (no unqualified session,
empty worklist). -/
theorem improve_monotone_qualified_witness :
    (qualCount (greedy_assign Wvars Wdoms).1
        ≤ qualCount (improve_assignments (greedy_assign Wvars Wdoms).1 Wdoms
            [] 5000).1) ∧
    (∀ k c, dlookupA (greedy_assign Wvars Wdoms).1 k = some c → candQ c = true →
      dlookupA (improve_assignments (greedy_assign Wvars Wdoms).1 Wdoms
          [] 5000).1 k = some c) ∧
    (∀ (courses : List (String × String)) (instructors : List (String × InstrInfo))
        (rooms : List (String × RoomInfo)) (timeslots : List String)
        (sections : List SectionRow) (curriculum : List (Int × List String))
        (shuffled2 : List LectureVar) (max2 : Nat),
      (run_pipeline courses instructors rooms timeslots sections curriculum
          shuffled2 max2).2.1
        = (greedy_assign
            (build_vars_domains courses instructors rooms timeslots sections
              curriculum).1
            (build_vars_domains courses instructors rooms timeslots sections
              curriculum).2).2) :=
  improve_monotone_qualified (greedy_assign Wvars Wdoms).1 Wdoms [] 5000
    (by decide) (by decide)

/-- Scenario refuting the unamended C9: two sessions compete for the single
room/timeslot; the second is committed by ConflictFallback with an
unqualified tuple, lands in the improvable set, and gets reassigned. -/
def X9courses : List (String × String) := [("c1", "lab"), ("c2", "lab")]
def X9instr : List (String × InstrInfo) :=
  [("i1", ⟨"I1", []⟩), ("i2", ⟨"I2", ["c2"]⟩), ("i3", ⟨"I3", ["c1"]⟩)]
def X9rooms : List (String × RoomInfo) := [("r1", ⟨"lab", 100⟩)]
def X9secs : List SectionRow := [⟨"s1", 1, 30⟩, ⟨"s2", 2, 20⟩]
def X9cur : List (Int × List String) := [(1, ["c1"]), (2, ["c2"])]
def X9vars : List LectureVar :=
  (build_vars_domains X9courses X9instr X9rooms CXts X9secs X9cur).1
def X9doms : List (String × List Cand) :=
  (build_vars_domains X9courses X9instr X9rooms CXts X9secs X9cur).2

/-- Counterexample to C9 as stated: the greedy pass records exactly one
violation — session `c2_s2_L0`, whose fallback tuple double-books room `r1`
at `t1` with `c1_s1_L0` — yet that fallback-committed session is in the
improvable worklist (it holds an unqualified tuple) and
`improve_assignments` *changes* its assignment. -/
theorem fallback_session_reassigned_counterexample :
    (greedy_assign X9vars X9doms).2 = 1 ∧
    dlookupA (greedy_assign X9vars X9doms).1
        (LectureVar.name ⟨"c2", "s2", 2, 0, 20⟩)
      = some ("t1", "r1", "i1", false) ∧
    dlookupA (greedy_assign X9vars X9doms).1
        (LectureVar.name ⟨"c1", "s1", 1, 0, 30⟩)
      = some ("t1", "r1", "i3", true) ∧
    unqualifiedOf (greedy_assign X9vars X9doms).1 = [⟨"c2", "s2", 2, 0, 20⟩] ∧
    dlookupA (improve_assignments (greedy_assign X9vars X9doms).1 X9doms
        (unqualifiedOf (greedy_assign X9vars X9doms).1) 5000).1
        (LectureVar.name ⟨"c2", "s2", 2, 0, 20⟩)
      = some ("t1", "r1", "i2", true) := by
  refine ⟨?_, ?_, ?_, ?_, ?_⟩ <;> decide
